import Mathlib

/-!
# Verification of the StGit stack-transaction core

A shallow embedding of `src/stack/transaction/mod.rs` (the `StackTransaction`
engine, `ExecuteContext::execute`, and the `checkout` helper) together with the
pieces of `src/ext/commit.rs` it uses (`is_no_change`, first-parent access).

Modelling conventions:
* Object ids (`Oid`) and patch names (`PatchName`) are natural numbers;
  the patch-name type is an opaque totally ordered identifier in the program.
* The git object database is an association list `Oid -> CommitData`; commit
  creation (`commit_ex`) allocates a fresh id from a counter.  Author,
  committer and message are carried as opaque numbers: signature decoding
  (`author_strict`) is modelled as always succeeding, since commit encodings
  are out of scope for the verified claims.
* `BTreeMap` (for `updated_patches`) is an association list kept sorted by
  key; `IndexSet` is a duplicate-free list preserving first insertion order.
* The external "stupid" capability layer (three-way merges, index and
  worktree manipulation, status enumeration) is an oracle record `Env`:
  each operation whose outcome the program branches on is a function of the
  operation's arguments.  Ref-database plumbing (`lock_ref`, `set_target`,
  `remove`, `commit`) is modelled as infallible in-memory map updates: the
  model is single-process, so ref locking cannot fail (per the spec's
  non-goals, recovery from concurrent modification is out of scope).
* Every externally observable action is recorded in an event trace.
  Operations on `&mut self` are functions `St → Except TErr α × St`: the
  state at the moment an error is returned is kept, matching Rust `&mut`.
* Rust `panic!` / `assert!` / `unwrap` are modelled as a distinct error
  constructor `TErr.panic`, never as a returned `Result` error.
* The user-interface sink (`ui.rs`, not part of the sources) is modelled
  from the spec as an event emitter; the print helpers that the engine
  invokes with possibly-empty lists (`print_popped`, `print_deleted`, ...)
  emit nothing for an empty list, which is forced by the engine itself
  calling `print_deleted` on empty groups inside loops.
-/

/-- Git object id (commits and trees), modelled as a natural number. -/

abbrev Oid := Nat

/-- Patch name: an opaque, totally ordered identifier. -/

abbrev PatchName := Nat

/-- Lookup in an association list with `Nat` keys (model of map lookup). -/

def lookupA {β : Type} (k : Nat) : List (Nat × β) → Option β
  | [] => none
  | (k', v) :: rest => if k = k' then some v else lookupA k rest

/-- Sorted-insert for an association list ordered by key; replaces the value
if the key is present.  Model of `BTreeMap::insert`. -/

def insertB {β : Type} (k : Nat) (v : β) : List (Nat × β) → List (Nat × β)
  | [] => [(k, v)]
  | (k', v') :: rest =>
    if k < k' then (k, v) :: (k', v') :: rest
    else if k = k' then (k, v) :: rest
    else (k', v') :: insertB k v rest

/-- Remove a key from an association list.  Model of `BTreeMap::remove` /
ref deletion. -/

def removeB {β : Type} (k : Nat) (m : List (Nat × β)) : List (Nat × β) :=
  m.filter (fun p => p.1 ≠ k)

/-- Insert into an insertion-ordered duplicate-free list.
Model of `IndexSet::insert`. -/

def insertIS (x : Nat) (s : List Nat) : List Nat :=
  if x ∈ s then s else s ++ [x]

/-- Build an `IndexSet` from a list (first occurrences win). -/

def fromListIS (l : List Nat) : List Nat :=
  l.foldl (fun s x => insertIS x s) []

/-- Commit object payload.  `author`, `committer` and `message` are opaque;
`tree` and `parents` are object ids. -/

structure CommitData where
  tree : Oid
  parents : List Oid
  author : Nat
  committer : Nat
  message : Nat
deriving DecidableEq, Repr

/-- The git object database plus a fresh-id allocator. -/

structure Repo where
  commits : List (Oid × CommitData)
  next : Oid
deriving DecidableEq, Repr

/-- `repo.find_commit` on an id already known to be a commit. -/

def Repo.find (r : Repo) (oid : Oid) : Option CommitData :=
  lookupA oid r.commits

/-- `repo.commit_ex(author, committer, message, tree, parents)`: write a new
commit object and return its id. -/

def Repo.commitEx (r : Repo) (author committer message : Nat) (tree : Oid)
    (parents : List Oid) : Oid × Repo :=
  (r.next,
   { commits := insertB r.next ⟨tree, parents, author, committer, message⟩ r.commits,
     next := r.next + 1 })

/-- First parent of a commit (`commit.parent(0)` / `parent_id(0)`). -/

def Repo.parent0 (r : Repo) (oid : Oid) : Option Oid := do
  let cd ← r.find oid
  cd.parents.head?

/-- Tree id of a commit (`commit.tree_id()`). -/

def Repo.treeOf (r : Repo) (oid : Oid) : Option Oid :=
  (r.find oid).map CommitData.tree

/-- `CommitExtended::is_no_change` from `src/ext/commit.rs`: a commit with
exactly one parent and the same tree as that parent; commits with zero or
several parents are never "no change". -/

def Repo.isNoChange (r : Repo) (oid : Oid) : Option Bool := do
  let cd ← r.find oid
  match cd.parents with
  | [pid] => do
    let pd ← r.find pid
    pure (pd.tree = cd.tree)
  | _ => pure false

/-- `git_repository::Signature::default_committer(config)`, an opaque value. -/

def defaultCommitter : Nat := 0

/-- State of a patch: its associated commit. -/

structure PatchState where
  commit : Oid
deriving DecidableEq, Repr

/-- On-disk stack state (`StackState`): previous state commit, head commit,
the three patch lists and the patch map (a `BTreeMap`, kept sorted). -/

structure StackState where
  prev : Option Oid
  head : Oid
  applied : List PatchName
  unapplied : List PatchName
  hidden : List PatchName
  patches : List (PatchName × PatchState)
deriving DecidableEq, Repr

/-- `StackState::all_patches`.  Modelled from the spec: the three ordered
sequences applied, unapplied, hidden (the state's patch membership). -/

def StackState.allPatches (s : StackState) : List PatchName :=
  s.applied ++ s.unapplied ++ s.hidden

/-- The `Stack` (external to the verified sources; only the fields and
accessors the transaction core uses are modelled). -/

structure Stack where
  branchHead : Oid
  baseOid : Oid
  state : StackState
deriving DecidableEq, Repr

/-- `Stack::has_patch`.  Modelled from the spec: membership in the stack's
patch mapping. -/

def Stack.hasPatch (st : Stack) (pn : PatchName) : Bool :=
  (lookupA pn st.state.patches).isSome

/-- `Stack::get_patch`.  Modelled from the spec: lookup in the stack's patch
mapping (panics in the program when absent, hence `Option` here). -/

def Stack.getPatch (st : Stack) (pn : PatchName) : Option PatchState :=
  lookupA pn st.state.patches

/-- `Stack::collides`.  Modelled from the spec: a name collides when a live
patch of the stack already has that name. -/

def Stack.collides (st : Stack) (pn : PatchName) : Option PatchName :=
  if st.hasPatch pn then some pn else none

/-- Top commit of the original stack: last applied patch's commit, else the
base.  Modelled from the spec glossary ("Top"). -/

def Stack.topOid (st : Stack) : Option Oid :=
  match st.state.applied.getLast? with
  | some pn => (st.getPatch pn).map PatchState.commit
  | none => some st.baseOid

/-- `Stack::is_head_top`.  Modelled from the spec: the branch head commit
matches the stack's top commit. -/

def Stack.isHeadTop (st : Stack) : Bool :=
  st.topOid = some st.branchHead

/-- Conflict-mode policy for the execute-time checkout. -/

inductive ConflictMode where
  | disallow
  | allow
  | allowIfSameTop
deriving DecidableEq, Repr

/-- `TransactionOptions` (module `options`, external to the sources):
commit-time behavior flags. -/

structure TransactionOptions where
  conflictMode : ConflictMode
  discardChanges : Bool
  useIndexAndWorktree : Bool
  setHead : Bool
  allowBadHead : Bool
deriving DecidableEq, Repr

/-- Status of a pushed patch (`PushStatus`). -/

inductive PushStatus where
  | new
  | alreadyMerged
  | conflict
  | empty
  | modified
  | unmodified
deriving DecidableEq, Repr

/-- Error kinds.  `transactionHalt` and `checkoutConflicts` are the.
`Error` variants the core matches on; `other` stands for `anyhow!` errors
and propagated capability errors; `panic` models `panic!`, `assert!` and
`unwrap` aborts (not a `Result` return in the program). -/

inductive TErr where
  | transactionHalt (msg : String) (conflicts : Bool)
  | checkoutConflicts (msg : String)
  | other (msg : String)
  | panic (msg : String)
deriving DecidableEq, Repr

/-- Externally observable actions, in program order.  UI events mirror the
`TransactionUserInterface` print calls; the rest records capability-layer
invocations and ref-database writes. -/

inductive Event where
  | pushed (pn : PatchName) (status : PushStatus) (isLast : Bool)
  | popped (pns : List PatchName)
  | deleted (pns : List PatchName)
  | updatedEvt (pn : PatchName)
  | renamed (oldPn newPn : PatchName)
  | mergedEvt (pns : List PatchName)
  | hiddenEvt (pns : List PatchName)
  | unhiddenEvt (pns : List PatchName)
  | committedEvt (pns : List PatchName)
  | statuses
  | readTree (tree : Oid)
  | readTreeCheckout (fromTree toTree : Oid)
  | readTreeCheckoutHard (toTree : Oid)
  | updateIndexRefresh
  | applyTreediff (base theirs : Oid)
  | mergeRecursive (base ours theirs : Oid)
  | notesCopy (fromOid toOid : Oid)
  | writeTreeEvt
  | branchSetTarget (oid : Oid)
  | patchRefSet (pn : PatchName) (oid : Oid)
  | patchRefRemove (pn : PatchName)
  | stackRefSet (oid : Oid)
  | logExternalMods
deriving DecidableEq, Repr

/-- In-memory transaction state (`StackTransaction`).  The UI's
printed-a-top-event flag is flattened into the record. -/

structure StackTransaction where
  stack : Stack
  options : TransactionOptions
  applied : List PatchName
  unapplied : List PatchName
  hidden : List PatchName
  updatedPatches : List (PatchName × Option PatchState)
  updatedHead : Option Oid
  updatedBase : Option Oid
  currentTreeId : Oid
  error : Option TErr
  printedTop : Bool
deriving DecidableEq, Repr

/-- Durable references: the branch ref, per-patch refs and the stack state
ref. -/

structure Refs where
  branchTarget : Oid
  patchRefs : List (PatchName × Oid)
  stackStateRef : Oid
deriving DecidableEq, Repr

/-- The whole mutable world: transaction, object database, refs, written
state commits, and the event trace. -/

structure St where
  trans : StackTransaction
  repo : Repo
  refs : Refs
  stateCommits : List (Oid × StackState)
  trace : List Event
deriving DecidableEq, Repr

/-- Oracle for the external capability layer: outcomes of the operations the
program branches on.  Items indexed by tree ids so distinct calls may have
distinct outcomes. -/

structure Env where
  /-- `statuses().check_conflicts()`: true means conflicts present (check fails). -/
  statusesConflict : Bool
  /-- `read_tree_checkout(from, to)` succeeds. -/
  readTreeCheckoutOk : Oid → Oid → Bool
  /-- `read_tree_checkout_hard(to)` succeeds. -/
  hardCheckoutOk : Oid → Bool
  /-- `update_index_refresh()` succeeds. -/
  indexRefreshOk : Bool
  /-- `apply_treediff_to_index(base, theirs)` on a temp index whose known
  content is the first argument (`none` when unknown): `ok true` = applied
  cleanly, `ok false` = refused, `error` = capability failure. -/
  applyTreediff : Option Oid → Oid → Oid → Except String Bool
  /-- temp-index `write_tree()` after a clean treediff apply of
  `base → theirs` onto `ours`; `none` models `.ok()` swallowing a failure. -/
  tempWriteTree : Oid → Oid → Oid → Option Oid
  /-- `merge_recursive_or_mergetool(base, ours, theirs, _)`:
  `ok true` clean, `ok false` conflicts left in worktree, `error` hard failure. -/
  mergeResult : Oid → Oid → Oid → Except String Bool
  /-- main-index `write_tree()` after a clean recursive merge; `none` = failure. -/
  mergeWriteTree : Oid → Oid → Oid → Option Oid
  /-- config `stgit.autoimerge`. -/
  autoimerge : Bool
  /-- `stack.log_external_mods()` succeeds. -/
  logExternalModsOk : Bool

/-- Append an event to the trace. -/

def emit (e : Event) (s : St) : St :=
  { s with trace := s.trace ++ [e] }

/-- Result of a fallible operation on the world: Rust `&mut self` keeps all
mutations made before an early return, so the state is always returned. -/

abbrev Res (α : Type) := Except TErr α × St

/-- Sequencing that mirrors `?`: propagate the error, keep the state. -/

def bindR {α β : Type} (x : Res α) (f : α → St → Res β) : Res β :=
  match x with
  | (.ok a, s) => f a s
  | (.error e, s) => (.error e, s)

def StackTransaction.allPatches (t : StackTransaction) : List PatchName :=
  t.applied ++ t.unapplied ++ t.hidden

/-- Transaction patch lookup (`StackStateAccess::get_patch` for
`StackTransaction`): updated patches shadow the stack; a tombstone or a
missing name is a panic in the program, hence `none`. -/

def StackTransaction.getPatchState (t : StackTransaction) (pn : PatchName) :
    Option PatchState :=
  match lookupA pn t.updatedPatches with
  | some mp => mp
  | none => t.stack.getPatch pn

/-- Commit id of a patch in the transaction view (`get_patch_commit`). -/

def StackTransaction.getPatchCommit (t : StackTransaction) (pn : PatchName) :
    Option Oid :=
  (t.getPatchState pn).map PatchState.commit

/-- `StackStateAccess::has_patch` for the transaction. -/

def StackTransaction.hasPatch (t : StackTransaction) (pn : PatchName) : Bool :=
  match lookupA pn t.updatedPatches with
  | some mp => mp.isSome
  | none => t.stack.hasPatch pn

/-- `base()`: the updated base if set, else the stack's base. -/

def StackTransaction.baseO (t : StackTransaction) : Oid :=
  t.updatedBase.getD t.stack.baseOid

/-- `top()`: last applied patch's commit, else the base. -/

def StackTransaction.topO (t : StackTransaction) : Option Oid :=
  match t.applied.getLast? with
  | some pn => t.getPatchCommit pn
  | none => some t.baseO

/-- `head()`: the updated head if set, else `top()`. -/

def StackTransaction.headO (t : StackTransaction) : Option Oid :=
  match t.updatedHead with
  | some c => some c
  | none => t.topO

/-- `ui.print_pushed`: emits the event; printing a last (top) patch records
that a top event has been printed (modelled from the spec's step 8 of
execute). -/

def printPushed (pn : PatchName) (status : PushStatus) (isLast : Bool)
    (s : St) : St :=
  let s := emit (.pushed pn status isLast) s
  if isLast then { s with trans := { s.trans with printedTop := true } } else s

/-- `ui.print_popped`: nothing is printed for an empty list. -/

def printPopped (pns : List PatchName) (s : St) : St :=
  if pns.isEmpty then s else emit (.popped pns) s

/-- `ui.print_deleted`: nothing is printed for an empty group (the engine
itself calls this with empty groups inside loops). -/

def printDeleted (pns : List PatchName) (s : St) : St :=
  if pns.isEmpty then s else emit (.deleted pns) s

/-- `ui.print_merged`: nothing for an empty list. -/

def printMerged (pns : List PatchName) (s : St) : St :=
  if pns.isEmpty then s else emit (.mergedEvt pns) s

/-- `ui.print_hidden`: nothing for an empty list. -/

def printHidden (pns : List PatchName) (s : St) : St :=
  if pns.isEmpty then s else emit (.hiddenEvt pns) s

/-- `ui.print_unhidden`: nothing for an empty list. -/

def printUnhidden (pns : List PatchName) (s : St) : St :=
  if pns.isEmpty then s else emit (.unhiddenEvt pns) s

/-- `ui.print_committed`: nothing for an empty list. -/

def printCommitted (pns : List PatchName) (s : St) : St :=
  if pns.isEmpty then s else emit (.committedEvt pns) s

/-- `ui.print_updated`. -/

def printUpdated (pn : PatchName) (s : St) : St :=
  emit (.updatedEvt pn) s

/-- `ui.print_rename`. -/

def printRename (oldPn newPn : PatchName) (s : St) : St :=
  emit (.renamed oldPn newPn) s

/-- Record a live patch state in `updated_patches`. -/

def setUpdated (pn : PatchName) (ps : Option PatchState) (s : St) : St :=
  { s with trans :=
    { s.trans with updatedPatches := insertB pn ps s.trans.updatedPatches } }

/-- `StackTransaction::update_patch` (transaction/mod.rs lines 407-424). -/

def updatePatch (pn : PatchName) (commitId : Oid) (s : St) : Res Unit :=
  match s.repo.find commitId with
  | none => (.error (.other "find_commit"), s)
  | some _ =>
    match s.trans.getPatchCommit pn with
    | none => (.error (.panic "get_patch: deleted or unknown patch"), s)
    | some oldCommit =>
      let s := emit (.notesCopy oldCommit commitId) s
      let s := setUpdated pn (some ⟨commitId⟩) s
      (.ok (), printUpdated pn s)

/-- `StackTransaction::new_applied` (lines 430-438).  The commit's first
parent must equal `top()` (asserted). -/

def newApplied (pn : PatchName) (oid : Oid) (s : St) : Res Unit :=
  match s.repo.find oid with
  | none => (.error (.other "find_commit"), s)
  | some cd =>
    match cd.parents.head?, s.trans.topO with
    | some p0, some topId =>
      if p0 = topId then
        let s := { s with trans := { s.trans with
          applied := s.trans.applied ++ [pn],
          updatedPatches := insertB pn (some ⟨oid⟩) s.trans.updatedPatches } }
        (.ok (), printPushed pn .new true s)
      else (.error (.panic "assert: commit parent is not top"), s)
    | _, _ => (.error (.panic "parent_id(0)/top unwrap"), s)

/-- `StackTransaction::new_unapplied` (lines 443-455).  `Vec::insert` panics
when the position exceeds the length. -/

def newUnapplied (pn : PatchName) (commitId : Oid) (insertPos : Nat)
    (s : St) : Res Unit :=
  match s.repo.find commitId with
  | none => (.error (.other "find_commit"), s)
  | some _ =>
    if insertPos ≤ s.trans.unapplied.length then
      let s := { s with trans := { s.trans with
        unapplied := s.trans.unapplied.insertIdx insertPos pn,
        updatedPatches := insertB pn (some ⟨commitId⟩) s.trans.updatedPatches } }
      (.ok (), printPopped [pn] s)
    else (.error (.panic "Vec::insert out of bounds"), s)

/-- `StackTransaction::pop_patches` (lines 823-856): split the applied list
at the first patch satisfying the predicate; incidental pops (not
satisfying) then requested pops are prepended to unapplied; returns the
incidental pops. -/

def popPatches (shouldPop : PatchName → Bool) (s : St) :
    Res (List PatchName) :=
  let t := s.trans
  let allPopped :=
    match t.applied.findIdx? shouldPop with
    | some i => t.applied.drop i
    | none => []
  let applied' :=
    match t.applied.findIdx? shouldPop with
    | some i => t.applied.take i
    | none => t.applied
  let incidental := allPopped.filter (fun pn => !shouldPop pn)
  let requested := allPopped.filter shouldPop
  let s := { s with trans := { t with
    applied := applied',
    unapplied := incidental ++ requested ++ t.unapplied } }
  (.ok incidental, printPopped allPopped s)

/-- Loop of `delete_patches` over the popped applied patches (lines
778-786): deleted names are tombstoned and gathered in contiguous groups;
hitting a non-deleted name flushes the group to the UI. -/

def deleteLoopPopped (shouldDelete : PatchName → Bool)
    (pops : List PatchName) (group : List PatchName) (s : St) :
    List PatchName × St :=
  match pops with
  | [] => (group, s)
  | pn :: rest =>
    if shouldDelete pn then
      deleteLoopPopped shouldDelete rest (group ++ [pn]) (setUpdated pn none s)
    else if group.isEmpty then
      deleteLoopPopped shouldDelete rest group s
    else
      deleteLoopPopped shouldDelete rest [] (printDeleted group s)

/-- Loop of `delete_patches` over the former unapplied list (lines
788-797): deleted names are tombstoned; surviving names are pushed back
onto the (rebuilt) unapplied list after flushing the group. -/

def deleteLoopUnapplied (shouldDelete : PatchName → Bool)
    (olds : List PatchName) (group : List PatchName) (s : St) :
    List PatchName × St :=
  match olds with
  | [] => (group, s)
  | pn :: rest =>
    if shouldDelete pn then
      deleteLoopUnapplied shouldDelete rest (group ++ [pn]) (setUpdated pn none s)
    else
      let s := printDeleted group s
      let s := { s with trans :=
        { s.trans with unapplied := s.trans.unapplied ++ [pn] } }
      deleteLoopUnapplied shouldDelete rest [] s

/-- Loop of `delete_patches` over the hidden list (lines 799-810): in-place
removal of deleted names; a surviving name flushes the group.  Returns the
surviving hidden names in order. -/

def deleteLoopHidden (shouldDelete : PatchName → Bool)
    (hid : List PatchName) (group : List PatchName) (s : St) :
    List PatchName × List PatchName × St :=
  match hid with
  | [] => ([], group, s)
  | pn :: rest =>
    if shouldDelete pn then
      let s := setUpdated pn none s
      deleteLoopHidden shouldDelete rest (group ++ [pn]) s
    else
      let s := printDeleted group s
      let r := deleteLoopHidden shouldDelete rest [] s
      (pn :: r.1, r.2.1, r.2.2)

/-- `StackTransaction::delete_patches` (lines 753-817): pop the applied
list at the first deleted patch, keep incidental pops in unapplied,
tombstone deleted names from the pops, the former unapplied, and the hidden
list; returns the incidental pops. -/

def deletePatches (shouldDelete : PatchName → Bool) (s : St) :
    Res (List PatchName) :=
  let t := s.trans
  let allPopped :=
    match t.applied.findIdx? shouldDelete with
    | some i => t.applied.drop i
    | none => []
  let applied' :=
    match t.applied.findIdx? shouldDelete with
    | some i => t.applied.take i
    | none => t.applied
  let incidental := allPopped.filter (fun pn => !shouldDelete pn)
  let s := { s with trans := { t with
    applied := applied',
    unapplied := incidental } }
  let s := printPopped allPopped s
  let r1 := deleteLoopPopped shouldDelete allPopped [] s
  let r2 := deleteLoopUnapplied shouldDelete t.unapplied r1.1 r1.2
  let r3 := deleteLoopHidden shouldDelete r2.2.trans.hidden r2.1 r2.2
  let s := { r3.2.2 with trans := { r3.2.2.trans with hidden := r3.1 } }
  let s := printDeleted r3.2.1 s
  (.ok incidental, s)

/-- List movement tail of `push_tree` (lines 506-522): the patch must
currently be unapplied or hidden (else panic); it is erased there and
appended to applied. -/

def pushTreeFinish (pn : PatchName) (pushStatus : PushStatus)
    (isLast : Bool) (s : St) : Res Unit :=
  if pn ∈ s.trans.unapplied then
    let s := { s with trans := { s.trans with
      unapplied := s.trans.unapplied.erase pn,
      applied := s.trans.applied ++ [pn] } }
    (.ok (), printPushed pn pushStatus isLast s)
  else if pn ∈ s.trans.hidden then
    let s := { s with trans := { s.trans with
      hidden := s.trans.hidden.erase pn,
      applied := s.trans.applied ++ [pn] } }
    (.ok (), printPushed pn pushStatus isLast s)
  else
    (.error (.panic "push_tree: not in unapplied or hidden"), s)

/-- `StackTransaction::push_tree` (lines 475-523): push a patch keeping its
existing tree.  If its first parent is not the current top, a new commit
with the same tree is synthesized on top; the patch must currently be
unapplied or hidden (else panic). -/

def pushTree (pn : PatchName) (isLast : Bool) (s : St) : Res Unit :=
  match s.trans.getPatchCommit pn with
  | none => (.error (.panic "get_patch: deleted or unknown patch"), s)
  | some patchCommit =>
    match s.repo.find patchCommit with
    | none => (.error (.other "missing patch commit object"), s)
    | some pcd =>
      match pcd.parents.head? with
      | none => (.error (.other "patch commit has no parent"), s)
      | some parentOid =>
        match s.repo.treeOf parentOid with
        | none => (.error (.other "missing parent commit object"), s)
        | some parentTree =>
          match s.trans.topO with
          | none => (.error (.panic "top patch lookup"), s)
          | some topOid =>
            let isEmptyP := parentTree = pcd.tree
            let psSt :=
              if parentOid ≠ topOid then
                let newCommitId := (s.repo.commitEx pcd.author
                  defaultCommitter pcd.message pcd.tree [topOid]).1
                let s := { s with repo := (s.repo.commitEx pcd.author
                  defaultCommitter pcd.message pcd.tree [topOid]).2 }
                let s := emit (.notesCopy patchCommit newCommitId) s
                let s := setUpdated pn (some ⟨newCommitId⟩) s
                (PushStatus.modified, s)
              else (PushStatus.unmodified, s)
            pushTreeFinish pn
              (if isEmptyP then PushStatus.empty else psSt.1) isLast psSt.2

/-- `StackTransaction::push_tree_patches` (lines 458-467). -/

def pushTreePatches (pns : List PatchName) (s : St) : Res Unit :=
  match pns with
  | [] => (.ok (), s)
  | pn :: rest =>
    bindR (pushTree pn rest.isEmpty s) (fun _ s => pushTreePatches rest s)

/-- Three-way merge orchestration of `push_patch` (lines 932-995): load the
temp index with `ours` if needed, apply the tree-diff `base → theirs`; when
that yields no tree, either halt (worktree untouchable), or check out
`ours` and run the recursive merge, producing a Modified tree, a Conflict
with `ours` as the tree, or a halt. -/

def pushPatchMerge (env : Env) (pn : PatchName) (base ours theirs : Oid)
    (tempIdx : Option Oid) (s : St) :
    Except TErr (Oid × PushStatus) × Option Oid × St :=
  let (tempIdx2, s1) :=
    if tempIdx ≠ some ours then (some ours, emit (.readTree ours) s)
    else (tempIdx, s)
  let s2 := emit (.applyTreediff base theirs) s1
  match env.applyTreediff (some ours) base theirs with
  | .error e => (.error (.other e), tempIdx2, s2)
  | .ok appliedClean =>
    match (if appliedClean then env.tempWriteTree ours base theirs else none) with
    | some treeId => (.ok (treeId, .unmodified), tempIdx2, s2)
    | none =>
      if !s2.trans.options.useIndexAndWorktree then
        (.error (.transactionHalt (toString pn ++ " does not apply cleanly")
          false), tempIdx2, s2)
      else
        let s3 := emit (.readTreeCheckout s2.trans.currentTreeId ours) s2
        if !env.readTreeCheckoutOk s2.trans.currentTreeId ours then
          (.error (.transactionHalt "Index/worktree dirty" false), tempIdx2, s3)
        else
          let s4 := { s3 with trans := { s3.trans with currentTreeId := ours } }
          let s5 := emit (.mergeRecursive base ours theirs) s4
          match env.mergeResult base ours theirs with
          | .ok true =>
            match env.mergeWriteTree base ours theirs with
            | none =>
              (.error (.transactionHalt "Conflicting merge" false), tempIdx2, s5)
            | some treeId =>
              let s6 := { s5 with trans :=
                { s5.trans with currentTreeId := treeId } }
              (.ok (treeId, .modified), tempIdx2, s6)
          | .ok false => (.ok (ours, .conflict), tempIdx2, s5)
          | .error e => (.error (.transactionHalt e false), tempIdx2, s5)

/-- New-tree computation of `push_patch` (lines 920-996): the four fast
paths, else the three-way merge orchestration with the (ours, theirs) bias
chosen by the temp index's current content. -/

def pushPatchCompute (env : Env) (pn : PatchName) (alreadyMerged : Bool)
    (patchTree oldParentTree newParentTree : Oid) (tempIdx : Option Oid)
    (s : St) : Except TErr (Oid × PushStatus) × Option Oid × St :=
  if alreadyMerged then
    (.ok (newParentTree, .alreadyMerged), tempIdx, s)
  else if oldParentTree = newParentTree then
    (.ok (patchTree, .unmodified), tempIdx, s)
  else if oldParentTree = patchTree then
    (.ok (newParentTree, .unmodified), tempIdx, s)
  else if newParentTree = patchTree then
    (.ok (patchTree, .unmodified), tempIdx, s)
  else
    pushPatchMerge env pn oldParentTree
      (if tempIdx = some patchTree then patchTree else newParentTree)
      (if tempIdx = some patchTree then newParentTree else patchTree)
      tempIdx s

/-- Commit synthesis, conflict handling and list movement of `push_patch`
(lines 998-1045): synthesize a commit when tree or parent changed (storing
it as the updated head on conflict), flip the conflict mode on conflict,
move the patch from unapplied or hidden into applied, and return a
conflicts=true `TransactionHalt` iff the status is Conflict. -/

def pushPatchFinish (pn : PatchName) (isLast : Bool) (pc : Oid)
    (pcd : CommitData) (oldParentOid npOid npdTree newTreeId : Oid)
    (status0 : PushStatus) (s : St) : Res Unit :=
  let statusAndSt :=
    if newTreeId ≠ pcd.tree ∨ npOid ≠ oldParentOid then
      let commitId := (s.repo.commitEx pcd.author defaultCommitter
        pcd.message newTreeId [npOid]).1
      let s1 := { s with repo := (s.repo.commitEx pcd.author defaultCommitter
        pcd.message newTreeId [npOid]).2 }
      let s2 := emit (.notesCopy pc commitId) s1
      if status0 = .conflict then
        (status0, setUpdated pn (some ⟨commitId⟩)
          { s2 with trans := { s2.trans with updatedHead := some commitId } })
      else
        ((if status0 ≠ .alreadyMerged ∧ newTreeId = npdTree
          then PushStatus.empty else status0),
         setUpdated pn (some ⟨commitId⟩) s2)
    else (status0, s)
  let status := statusAndSt.1
  let s3 :=
    if status = .conflict then
      { statusAndSt.2 with trans := { statusAndSt.2.trans with options :=
        { statusAndSt.2.trans.options with conflictMode := .allow } } }
    else statusAndSt.2
  let s4 :=
    if pn ∈ s3.trans.unapplied then
      { s3 with trans :=
        { s3.trans with unapplied := s3.trans.unapplied.erase pn } }
    else if pn ∈ s3.trans.hidden then
      { s3 with trans := { s3.trans with hidden := s3.trans.hidden.erase pn } }
    else s3
  let s5 := { s4 with trans :=
    { s4.trans with applied := s4.trans.applied ++ [pn] } }
  let s6 := printPushed pn status isLast s5
  if status = .conflict then
    (.error (.transactionHalt "Merge conflicts" true), s6)
  else
    (.ok (), s6)

/-- `StackTransaction::push_patch` (lines 904-1046): object lookups, the
new-tree computation, then commit synthesis and list movement. -/

def pushPatch (env : Env) (pn : PatchName) (alreadyMerged isLast : Bool)
    (tempIdx : Option Oid) (s : St) : Except TErr Unit × Option Oid × St :=
  match s.trans.getPatchCommit pn with
  | none => (.error (.panic "get_patch: deleted or unknown patch"), tempIdx, s)
  | some patchCommit =>
    match s.repo.find patchCommit with
    | none => (.error (.other "missing patch commit object"), tempIdx, s)
    | some pcd =>
      match pcd.parents.head? with
      | none => (.error (.other "patch commit has no parent"), tempIdx, s)
      | some oldParentOid =>
        match s.repo.treeOf oldParentOid with
        | none => (.error (.other "missing parent commit object"), tempIdx, s)
        | some oldParentTree =>
          match s.trans.topO with
          | none => (.error (.panic "top patch lookup"), tempIdx, s)
          | some newParentOid =>
            match s.repo.treeOf newParentOid with
            | none => (.error (.other "missing top commit object"), tempIdx, s)
            | some newParentTree =>
              match pushPatchCompute env pn alreadyMerged pcd.tree
                  oldParentTree newParentTree tempIdx s with
              | (.error e, tempIdx2, s) => (.error e, tempIdx2, s)
              | (.ok (newTreeId, status0), tempIdx2, s) =>
                match pushPatchFinish pn isLast patchCommit pcd oldParentOid
                    newParentOid newParentTree newTreeId status0 s with
                | (r, s) => (r, tempIdx2, s)

/-- Loop of `StackTransaction::check_merged` (lines 1070-1086) over the
patch names in reverse: skip no-change patches; reverse-apply the others to
the temp index; a clean apply records the patch as merged and invalidates
the known temp-index tree. -/

def checkMergedLoop (env : Env) (revPns : List PatchName)
    (tempIdx : Option Oid) (merged : List PatchName) (s : St) :
    Except TErr (List PatchName) × Option Oid × St :=
  match revPns with
  | [] => (.ok merged, tempIdx, s)
  | pn :: rest =>
    match s.trans.getPatchCommit pn with
    | none => (.error (.panic "get_patch: deleted or unknown patch"), tempIdx, s)
    | some patchCommit =>
      match s.repo.isNoChange patchCommit with
      | none => (.error (.other "missing commit object"), tempIdx, s)
      | some noChange =>
        if noChange then checkMergedLoop env rest tempIdx merged s
        else
          match s.repo.parent0 patchCommit, s.repo.treeOf patchCommit with
          | some parentOid, some patchTree =>
            match s.repo.treeOf parentOid with
            | none => (.error (.other "missing parent commit object"), tempIdx, s)
            | some parentTree =>
              let s := emit (.applyTreediff patchTree parentTree) s
              match env.applyTreediff tempIdx patchTree parentTree with
              | .error e => (.error (.other e), tempIdx, s)
              | .ok true => checkMergedLoop env rest none (merged ++ [pn]) s
              | .ok false => checkMergedLoop env rest tempIdx merged s
          | _, _ => (.error (.other "patch commit has no parent"), tempIdx, s)

/-- `StackTransaction::check_merged` (lines 1053-1091): load the branch
head tree into the temp index, then detect already-merged patches. -/

def checkMerged (env : Env) (pns : List PatchName) (tempIdx : Option Oid)
    (s : St) : Except TErr (List PatchName) × Option Oid × St :=
  match s.repo.treeOf s.trans.stack.branchHead with
  | none => (.error (.other "missing branch head object"), tempIdx, s)
  | some headTreeId =>
    let tis :=
      if tempIdx ≠ some headTreeId
      then (some headTreeId, emit (.readTree headTreeId) s)
      else (tempIdx, s)
    match checkMergedLoop env pns.reverse tis.1 [] tis.2 with
    | (.error e, tempIdx, s) => (.error e, tempIdx, s)
    | (.ok merged, tempIdx, s) => (.ok merged, tempIdx, printMerged merged s)

/-- Push loop of `StackTransaction::push_patches` (lines 884-898). -/

def pushPatchesLoop (env : Env) (pns : List PatchName)
    (merged : Option (List PatchName)) (tempIdx : Option Oid) (s : St) :
    Except TErr Unit × Option Oid × St :=
  match pns with
  | [] => (.ok (), tempIdx, s)
  | pn :: rest =>
    let am := (merged.map (fun m => m.contains pn)).getD false
    match pushPatch env pn am rest.isEmpty tempIdx s with
    | (.error e, tempIdx, s) => (.error e, tempIdx, s)
    | (.ok _, tempIdx, s) => pushPatchesLoop env rest merged tempIdx s

/-- `StackTransaction::push_patches` (lines 870-902): scoped temp-index
acquisition (the known temp-index tree starts out unknown and does not
outlive the call), optional already-merged detection, then the push loop. -/

def pushPatches (env : Env) (pns : List PatchName) (checkMergedFlag : Bool)
    (s : St) : Res Unit :=
  if checkMergedFlag then
    match checkMerged env pns none s with
    | (.error e, _, s) => (.error e, s)
    | (.ok merged, tempIdx, s) =>
      match pushPatchesLoop env pns (some merged) tempIdx s with
      | (r, _, s) => (r, s)
  else
    match pushPatchesLoop env pns none none s with
    | (r, _, s) => (r, s)

/-- Length of the longest common prefix of two lists
(`iter().zip(..).take_while(eq).count()`). -/

def countCommonPrefix : List PatchName → List PatchName → Nat
  | a :: as', b :: bs => if a = b then countCommonPrefix as' bs + 1 else 0
  | _, _ => 0

/-- Applied-list half of `reorder_patches` (lines 566-587): pop the applied
tail past the common prefix of the current and target applied lists, push
the target tail, assert the target was reached; when nothing had to be
pushed, the (unchanged) top is re-printed. -/

def reorderApplied (env : Env) (applied : List PatchName) (s : St) :
    Res Unit :=
  bindR (popPatches (fun pn =>
      (fromListIS (s.trans.applied.drop
        (countCommonPrefix s.trans.applied applied))).contains pn) s)
    (fun _ s1 =>
  bindR (pushPatches env
      (applied.drop (countCommonPrefix s.trans.applied applied)) false s1)
    (fun _ s2 =>
  if s2.trans.applied = applied then
    if (applied.drop (countCommonPrefix s.trans.applied applied)).isEmpty then
      match applied.getLast? with
      | some lastPn => (.ok (), printPushed lastPn .unmodified true s2)
      | none => (.ok (), s2)
    else (.ok (), s2)
  else (.error (.panic "assert_eq self.applied applied"), s2)))

/-- Wholesale replacement of the unapplied/hidden lists when provided
(lines 589-595). -/

def reorderAssign (unappliedArg hiddenArg : Option (List PatchName))
    (s : St) : St :=
  let s := match unappliedArg with
    | some u => { s with trans := { s.trans with unapplied := u } }
    | none => s
  match hiddenArg with
  | some h => { s with trans := { s.trans with hidden := h } }
  | none => s

/-- `StackTransaction::reorder_patches` (lines 560-598) assembled from the
two halves. -/

def reorderPatches (env : Env)
    (appliedArg unappliedArg hiddenArg : Option (List PatchName)) (s : St) :
    Res Unit :=
  bindR
    (match appliedArg with
     | none => (.ok (), s)
     | some applied => reorderApplied env applied s)
    (fun _ s => (.ok (), reorderAssign unappliedArg hiddenArg s))

/-- `StackTransaction::commit_patches` (lines 609-639): move the patches to
commit to the bottom of the stack (pop + push) if they are not already
there, make the last of them the new base, tombstone them, cut them off the
applied list, and re-push the incidentally popped patches. -/

def commitPatches (env : Env) (toCommit : List PatchName) (s : St) : Res Unit :=
  let numCommon := countCommonPrefix s.trans.applied toCommit
  let phase1 : Res (List PatchName) :=
    if numCommon < toCommit.length then
      let toPush := (s.trans.applied.drop numCommon).filter
        (fun pn => !toCommit.contains pn)
      bindR (popPatches (fun pn => toPush.contains pn) s) (fun _ s =>
      bindR (pushPatches env (toCommit.drop numCommon) false s) (fun _ s =>
      (.ok toPush, s)))
    else (.ok [], s)
  bindR phase1 (fun toPush s =>
  let s := printCommitted toCommit s
  match toCommit.getLast? with
  | none => (.error (.panic "to_commit.last() unwrap on empty"), s)
  | some lastPn =>
    match s.trans.getPatchCommit lastPn with
    | none => (.error (.panic "get_patch: deleted or unknown patch"), s)
    | some lastCommit =>
      let s := { s with trans :=
        { s.trans with updatedBase := some lastCommit } }
      let s := toCommit.foldl (fun s pn => setUpdated pn none s) s
      if toCommit.length ≤ s.trans.applied.length then
        let s := { s with trans :=
          { s.trans with applied := s.trans.applied.drop toCommit.length } }
        pushPatches env toPush false s
      else (.error (.panic "Vec::split_off out of bounds"), s))

/-- Commit-registration loop of `uncommit_patches` (lines 649-655). -/

def uncommitLoop (patches : List (PatchName × Oid))
    (acc : List PatchName) (s : St) : Res (List PatchName) :=
  match patches with
  | [] => (.ok acc, s)
  | (pn, cid) :: rest =>
    match s.repo.find cid with
    | none => (.error (.other "find_commit"), s)
    | some _ => uncommitLoop rest (acc ++ [pn]) (setUpdated pn (some ⟨cid⟩) s)

/-- `StackTransaction::uncommit_patches` (lines 645-659): register the
given (name, commit) pairs as new patches and prepend them to applied. -/

def uncommitPatches (patches : List (PatchName × Oid)) (s : St) : Res Unit :=
  bindR (uncommitLoop patches [] s) (fun newApplied s =>
    (.ok (), { s with trans :=
      { s.trans with applied := newApplied ++ s.trans.applied } }))

/-- `StackTransaction::hide_patches` (lines 665-685): hide via
`reorder_patches` with the filtered lists, then announce. -/

def hidePatches (env : Env) (toHide : List PatchName) (s : St) : Res Unit :=
  let applied := s.trans.applied.filter (fun pn => !toHide.contains pn)
  let unapplied := s.trans.unapplied.filter (fun pn => !toHide.contains pn)
  let hidden := toHide ++ s.trans.hidden
  bindR (reorderPatches env (some applied) (some unapplied) (some hidden) s)
    (fun _ s => (.ok (), printHidden toHide s))

/-- `StackTransaction::unhide_patches` (lines 688-706). -/

def unhidePatches (env : Env) (toUnhide : List PatchName) (s : St) : Res Unit :=
  let unapplied := s.trans.unapplied ++ toUnhide
  let hidden := s.trans.hidden.filter (fun pn => !toUnhide.contains pn)
  bindR (reorderPatches env none (some unapplied) (some hidden) s)
    (fun _ s => (.ok (), printUnhidden toUnhide s))

/-- Replace the first occurrence of a name in a list
(`position` + index assignment, lines 731-739). -/

def replaceFirst (oldPn newPn : PatchName) : List PatchName → List PatchName
  | [] => []
  | pn :: rest =>
    if pn = oldPn then newPn :: rest else pn :: replaceFirst oldPn newPn rest

/-- Early error checks of `rename_patch` (lines 717-729): a collision of
the new name with a live patch (unless tombstoned in this transaction), or,
only when no collision was reported, a nonexistent old name; checked
against the original stack. -/

def renameEarlyError (t : StackTransaction) (oldPn newPn : PatchName) :
    Option TErr :=
  match t.stack.collides newPn with
  | some colliding =>
    if (match lookupA colliding t.updatedPatches with
        | some mp => mp.isSome
        | none => true) then
      some (.other ("Patch `" ++ toString colliding ++ "` already exists"))
    else none
  | none =>
    if !(t.stack.hasPatch oldPn) then
      some (.other ("Patch `" ++ toString oldPn ++ "` does not exist"))
    else none

/-- List replacement and `updated_patches` swap of `rename_patch` (lines
731-746), entered once the early error checks have passed. -/

def renameApply (oldPn newPn : PatchName) (s : St) : Res Unit :=
  if s.trans.applied.contains oldPn || s.trans.unapplied.contains oldPn ||
      s.trans.hidden.contains oldPn then
    let s1 :=
      if oldPn ∈ s.trans.applied then
        { s with trans :=
          { s.trans with applied := replaceFirst oldPn newPn s.trans.applied } }
      else if oldPn ∈ s.trans.unapplied then
        { s with trans :=
          { s.trans with unapplied := replaceFirst oldPn newPn s.trans.unapplied } }
      else
        { s with trans :=
          { s.trans with hidden := replaceFirst oldPn newPn s.trans.hidden } }
    match s.trans.stack.getPatch oldPn with
    | none => (.error (.panic "stack.get_patch(old_patchname)"), s1)
    | some patch =>
      (.ok (), printRename oldPn newPn
        (setUpdated newPn (some patch) (setUpdated oldPn none s1)))
  else
    (.error (.panic "old not found in applied, unapplied, or hidden"), s)

/-- `StackTransaction::rename_patch` (lines 712-747).  Note line 741 looks
the old name up in the *original stack* (`self.stack.get_patch`), not in
the transaction's updated view. -/

def renamePatch (oldPn newPn : PatchName) (s : St) : Res Unit :=
  if newPn = oldPn then (.ok (), s)
  else
    match renameEarlyError s.trans oldPn newPn with
    | some e => (.error e, s)
    | none => renameApply oldPn newPn s

/-- Consumption loop of `repair_appliedness` (lines 546-549): each new name
must be taken from the remaining old-name set. -/

def repairConsume : List PatchName → List PatchName → Option (List PatchName)
  | [], old => some old
  | pn :: rest, old =>
    if pn ∈ old then repairConsume rest (old.erase pn) else none

/-- `StackTransaction::repair_appliedness` (lines 531-555): replace all
three lists outright; assert the new lists are a rearrangement of the old
membership. -/

def repairAppliedness (applied unapplied hidden : List PatchName) (s : St) :
    Res Unit :=
  let old := fromListIS (s.trans.applied ++ s.trans.unapplied ++ s.trans.hidden)
  let s := { s with trans := { s.trans with
    applied := applied, unapplied := unapplied, hidden := hidden } }
  match repairConsume (applied ++ unapplied ++ hidden) old with
  | none => (.error (.panic "new patchname must be an old patchname"), s)
  | some rem =>
    if rem.isEmpty then (.ok (), s)
    else (.error (.panic "all old patchnames must be in the new lists"), s)

/-- `StackTransaction::reset_to_state` (lines 303-328): tombstone every
known patch, then install the target state's patches, head, base and
lists. -/

def resetToState (state : StackState) (s : St) : Res Unit :=
  let t := s.trans
  let s := t.allPatches.foldl (fun s pn => setUpdated pn none s) s
  let ub : Except TErr Oid :=
    match state.applied.head? with
    | some pn =>
      match lookupA pn state.patches with
      | none => .error (.panic "patches[pn] index out of bounds")
      | some ps =>
        match s.repo.parent0 ps.commit with
        | none => .error (.other "parent(0)")
        | some p => .ok p
    | none => .ok state.head
  match ub with
  | .error e => (.error e, s)
  | .ok b =>
    let s := { s with trans := { s.trans with
      updatedBase := some b, updatedHead := some state.head } }
    let s := state.patches.foldl
      (fun s (p : PatchName × PatchState) => setUpdated p.1 (some p.2) s) s
    let s := { s with trans := { s.trans with
      applied := state.applied, unapplied := state.unapplied,
      hidden := state.hidden } }
    (.ok (), s)

/-- Re-install loop of `reset_to_state_partially` (lines 378-391). -/

def resetInstallLoop (stateArg : StackState)
    (existingPatches matchingPatches : List PatchName)
    (pns : List PatchName) (s : St) : Res Unit :=
  match pns with
  | [] => (.ok (), s)
  | pn :: rest =>
    if existingPatches.contains pn && matchingPatches.contains pn then
      resetInstallLoop stateArg existingPatches matchingPatches rest s
    else
      let s :=
        if existingPatches.contains pn then s
        else if stateArg.hidden.contains pn then
          { s with trans := { s.trans with hidden := s.trans.hidden ++ [pn] } }
        else
          { s with trans :=
            { s.trans with unapplied := s.trans.unapplied ++ [pn] } }
      match lookupA pn stateArg.patches with
      | none => (.error (.panic "state.patches[pn] index out of bounds"), s)
      | some ps =>
        let s := setUpdated pn (some ps) s
        resetInstallLoop stateArg existingPatches matchingPatches rest
          (printUpdated pn s)

/-- Pop/delete/install/re-push pipeline of `reset_to_state_partially`
(lines 357-400), over the name sets computed at entry. -/

def resetPartialGo (env : Env) (state : StackState)
    (existingPatches matchingPatches toResetPatches
      toPushBase : List PatchName)
    (popPred dPred : PatchName → Bool) (s : St) : Res Unit :=
  bindR (popPatches popPred s) (fun _ s =>
  bindR (deletePatches dPred s) (fun _ s =>
  bindR (resetInstallLoop state existingPatches matchingPatches
      toResetPatches s) (fun _ s =>
  let toPushL := toPushBase.filter
    (fun pn => s.trans.unapplied.contains pn || s.trans.hidden.contains pn)
  pushPatches env toPushL false s)))

/-- `StackTransaction::reset_to_state_partially` (lines 331-401). -/

def resetToStatePartially (env : Env) (state : StackState)
    (patchnames : List PatchName) (s : St) : Res Unit :=
  let onlyPatches := fromListIS patchnames
  let statePatches := fromListIS state.allPatches
  let toResetPatches := statePatches.filter (fun pn => onlyPatches.contains pn)
  let existingPatches := fromListIS s.trans.allPatches
  let originalAppliedOrder := s.trans.applied
  let toDeletePatches := (existingPatches.filter
    (fun pn => !toResetPatches.contains pn)).filter
    (fun pn => onlyPatches.contains pn)
  let matchingPatches := (state.patches.filter (fun p =>
    s.trans.hasPatch p.1 && (s.trans.getPatchCommit p.1 == some p.2.commit))).map
    Prod.fst
  let popPred : PatchName → Bool := fun pn =>
    if !onlyPatches.contains pn then false
    else if !toDeletePatches.contains pn then true
    else !matchingPatches.contains pn
  resetPartialGo env state existingPatches matchingPatches toResetPatches
    originalAppliedOrder popPred (fun pn => toDeletePatches.contains pn) s

/-- Message carried by an error (for the rollback wrapper in execute). -/

def TErr.msgOf : TErr → String
  | .transactionHalt m _ => m
  | .checkoutConflicts m => m
  | .other m => m
  | .panic m => m

/-- The `checkout` routine (transaction/mod.rs lines 256-289): bad-head
verification, then conflict-mode dispatch when the worktree already holds
the target tree, a hard checkout when discarding changes, else index
refresh plus a read-tree checkout whose failure becomes
`CheckoutConflicts`. -/

def checkout (env : Env) (stackArg : Stack) (options : TransactionOptions)
    (currentTreeId : Oid) (transTop : Option PatchName) (commitOid : Oid)
    (s : St) : Res Unit :=
  if !options.allowBadHead && !stackArg.isHeadTop then
    (.error (.other "head and top are not the same"), s)
  else
    match s.repo.treeOf commitOid with
    | none => (.error (.other "missing commit object"), s)
    | some commitTree =>
      if currentTreeId = commitTree ∧ ¬options.discardChanges then
        match options.conflictMode with
        | .allow => (.ok (), s)
        | .allowIfSameTop =>
          if transTop.isNone ∨ transTop ≠ stackArg.state.applied.getLast? then
            let s := emit .statuses s
            if env.statusesConflict then
              (.error (.other "conflicts present in worktree"), s)
            else (.ok (), s)
          else (.ok (), s)
        | .disallow =>
          let s := emit .statuses s
          if env.statusesConflict then
            (.error (.other "conflicts present in worktree"), s)
          else (.ok (), s)
      else if options.discardChanges then
        let s := emit (.readTreeCheckoutHard commitTree) s
        if env.hardCheckoutOk commitTree then (.ok (), s)
        else (.error (.other "read_tree_checkout_hard"), s)
      else
        let s := emit .updateIndexRefresh s
        if !env.indexRefreshOk then
          (.error (.other "update_index_refresh"), s)
        else
          let s := emit (.readTreeCheckout currentTreeId commitTree) s
          if env.readTreeCheckoutOk currentTreeId commitTree then (.ok (), s)
          else (.error (.checkoutConflicts "read_tree_checkout"), s)

/-- The consistency audit at the top of `execute` (lines 113-119): a
tombstone must have been a stack patch; a live update must be in one of the
transaction's lists. -/

def auditOk (t : StackTransaction) : Bool :=
  t.updatedPatches.all (fun p =>
    match p.2 with
    | none => t.stack.hasPatch p.1
    | some _ => t.allPatches.contains p.1)

/-- Patch-ref update loop of `execute` (lines 202-219): set or delete each
updated patch's ref and mirror the change in the stack state's patch map. -/

def refUpdateLoop (ups : List (PatchName × Option PatchState))
    (stack : Stack) (s : St) : Stack × St :=
  match ups with
  | [] => (stack, s)
  | (pn, mp) :: rest =>
    match mp with
    | some ps =>
      let s := emit (.patchRefSet pn ps.commit) s
      let s := { s with refs :=
        { s.refs with patchRefs := insertB pn ps.commit s.refs.patchRefs } }
      let stack := { stack with state :=
        { stack.state with patches := insertB pn ps stack.state.patches } }
      refUpdateLoop rest stack s
    | none =>
      let s := emit (.patchRefRemove pn) s
      let s := { s with refs :=
        { s.refs with patchRefs := removeB pn s.refs.patchRefs } }
      let stack := { stack with state :=
        { stack.state with patches := removeB pn stack.state.patches } }
      refUpdateLoop rest stack s

/-- Tail of `ExecuteContext::execute` (lines 202-253): patch-ref updates,
final top announcement, stack-state commit and ref update, and the final
halt-or-stack result. -/

def executeFinish (t : StackTransaction) (transHead : Oid)
    (stack2 : Stack) (s : St) : Res Stack :=
  let pr := refUpdateLoop t.updatedPatches stack2 s
  let stack3 := pr.1
  let s := pr.2
  let s :=
    if !s.trans.printedTop then
      match t.applied.getLast? with
      | some topPn => printPushed topPn .unmodified true s
      | none => s
    else s
  let prevStateCommit := s.refs.stackStateRef
  let newState := { stack3.state with
    prev := some prevStateCommit,
    head := transHead,
    applied := t.applied,
    unapplied := t.unapplied,
    hidden := t.hidden }
  let stack4 := { stack3 with state := newState }
  let stateCommitId := s.repo.next
  let s := { s with
    repo := { s.repo with next := s.repo.next + 1 },
    stateCommits := insertB stateCommitId newState s.stateCommits }
  let s := emit (.stackRefSet stateCommitId) s
  let s := { s with refs :=
    { s.refs with stackStateRef := stateCommitId } }
  match t.error with
  | some err => (.error err, s)
  | none => (.ok stack4, s)

/-- `ExecuteContext::execute` (lines 109-253): consistency audit, error
gating (only `TransactionHalt` proceeds), external-modification logging,
optional checkout with best-effort rollback, branch-ref move, patch-ref and
stack-state-ref updates, final top announcement, and re-raising of a stored
halt error after the refs are updated. -/

def execute (env : Env) (_reflogMsg : String) (s : St) : Res Stack :=
  let transaction := s.trans
  if !auditOk transaction then
    (.error (.panic "updated patch not consistent with the lists"), s)
  else
    match transaction.headO with
    | none => (.error (.panic "transaction head lookup"), s)
    | some transHead =>
      match (match transaction.error with
             | some (.transactionHalt _ conflicts) => Except.ok conflicts
             | some e => Except.error e
             | none => Except.ok false : Except TErr Bool) with
      | .error e => (.error e, s)
      | .ok _hasConflicts =>
        bindR
          (if transaction.stack.isHeadTop then (Except.ok transaction.stack, s)
           else
             let s := emit .logExternalMods s
             if env.logExternalModsOk then (Except.ok transaction.stack, s)
             else (Except.error (TErr.other "log_external_mods"), s))
          (fun stack1 s =>
        bindR
          (if transaction.options.setHead then
             bindR
               (if transaction.options.useIndexAndWorktree then
                  let stackHead := stack1.branchHead
                  match checkout env stack1 transaction.options
                      transaction.currentTreeId transaction.applied.getLast?
                      transHead s with
                  | (.ok _, s) => (Except.ok (), s)
                  | (.error e, s) =>
                    let options2 :=
                      { transaction.options with allowBadHead := true }
                    match checkout env stack1 options2
                        transaction.currentTreeId
                        transaction.applied.getLast? stackHead s with
                    | (.error e2, s) => (Except.error e2, s)
                    | (.ok _, s) =>
                      (Except.error (TErr.other (e.msgOf ++
                        "\nCommand aborted (all changes rolled back)")), s)
                else (Except.ok (), s))
               (fun _ s =>
                 let s := emit (.branchSetTarget transHead) s
                 let s := { s with refs :=
                   { s.refs with branchTarget := transHead } }
                 (Except.ok { stack1 with branchHead := transHead }, s))
           else (Except.ok stack1, s))
          (fun stack2 s => executeFinish transaction transHead stack2 s))

/-- C5: `pop_patches(should_pop)`: with `i` the first index in applied whose
patch satisfies `should_pop`, every applied patch at index `i` or above is
removed (applied keeps its prefix below `i`), the new unapplied list is the
removed patches not satisfying `should_pop` (in applied order), then the
removed patches satisfying it (in applied order), then the former
unapplied; the incidental list is returned.  With no satisfying applied
patch, nothing changes at all. -/

def optsD : TransactionOptions :=
  { conflictMode := .disallow, discardChanges := false,
    useIndexAndWorktree := true, setHead := true, allowBadHead := false }

/-- A concrete world: patches 1,2,3 applied, 4 unapplied, 5 hidden, with a
well-formed commit chain 10→11→12→13 over base 10 and patch 4 and 5 commits
parented on the base. -/

def st5 : St :=
  { trans :=
    { stack :=
      { branchHead := 13, baseOid := 10,
        state :=
        { prev := none, head := 13, applied := [1, 2, 3], unapplied := [4],
          hidden := [5],
          patches := [(1, ⟨11⟩), (2, ⟨12⟩), (3, ⟨13⟩), (4, ⟨14⟩), (5, ⟨15⟩)] } },
      options := optsD,
      applied := [1, 2, 3], unapplied := [4], hidden := [5],
      updatedPatches := [], updatedHead := none, updatedBase := none,
      currentTreeId := 23, error := none, printedTop := false },
    repo :=
    { commits :=
      [(10, ⟨20, [], 7, 7, 7⟩), (11, ⟨21, [10], 7, 7, 7⟩),
       (12, ⟨22, [11], 7, 7, 7⟩), (13, ⟨23, [12], 7, 7, 7⟩),
       (14, ⟨24, [10], 7, 7, 7⟩), (15, ⟨25, [10], 7, 7, 7⟩)],
      next := 100 },
    refs := { branchTarget := 13, patchRefs := [(1, 11), (2, 12), (3, 13), (4, 14), (5, 15)],
              stackStateRef := 90 },
    stateCommits := [], trace := [] }

/-- Witness for C5: popping patch 2 from applied [1,2,3] keeps [1], makes
unapplied [3, 2, 4] (incidental 3, requested 2, former 4) and returns
incidental [3]. -/

def envD : Env :=
  { statusesConflict := false,
    readTreeCheckoutOk := fun _ _ => true,
    hardCheckoutOk := fun _ => true,
    indexRefreshOk := true,
    applyTreediff := fun _ _ _ => .ok true,
    tempWriteTree := fun _ _ _ => some 77,
    mergeResult := fun _ _ _ => .ok true,
    mergeWriteTree := fun _ _ _ => some 78,
    autoimerge := false,
    logExternalModsOk := true }

def envC2 : Env :=
  { envD with
    applyTreediff := fun _ _ _ => .ok false,
    mergeResult := fun _ _ _ => .ok false }

/-- Concrete world for the conflicting push: patch 1 applied (tree 21),
patch 2 unapplied (tree 22), both parented on base 10 (tree 20). -/

def stC2 : St :=
  { trans :=
    { stack :=
      { branchHead := 11, baseOid := 10,
        state :=
        { prev := none, head := 11, applied := [1], unapplied := [2],
          hidden := [], patches := [(1, ⟨11⟩), (2, ⟨12⟩)] } },
      options := optsD,
      applied := [1], unapplied := [2], hidden := [],
      updatedPatches := [], updatedHead := none, updatedBase := none,
      currentTreeId := 21, error := none, printedTop := false },
    repo :=
    { commits :=
      [(10, ⟨20, [], 7, 7, 7⟩), (11, ⟨21, [10], 7, 7, 7⟩),
       (12, ⟨22, [10], 7, 7, 7⟩)],
      next := 100 },
    refs := { branchTarget := 11, patchRefs := [(1, 11), (2, 12)],
              stackStateRef := 90 },
    stateCommits := [], trace := [] }

/-- Witness for C2: pushing patch 2 in the conflicting world halts with
conflicts=true, stores the fresh commit 100 as updated head, and still
moves patch 2 into applied. -/

def stC1a : St :=
  { st5 with trans := { st5.trans with error := some (.other "boom") } }

/-- The C5 world with a captured halt error and two pending ref updates:
patch 3 re-recorded at commit 13 and patch 5 tombstoned. -/

def stC1b : St :=
  { st5 with trans := { st5.trans with
      error := some (.transactionHalt "halted" true),
      updatedPatches := [(3, some ⟨13⟩), (5, none)] } }

def chainNodup (t : StackTransaction) : Prop := t.allPatches.Nodup

/-- Pairwise disjointness of the three lists, as claimed. -/

def listsDisjoint (t : StackTransaction) : Prop :=
  t.applied.Disjoint t.unapplied ∧ t.applied.Disjoint t.hidden ∧
  t.unapplied.Disjoint t.hidden

/-- The sixteen mutation methods of `StackTransaction`, reified so a single
statement can quantify over them. -/

inductive Mutation where
  | updateM (pn : PatchName) (cid : Oid)
  | newAppliedM (pn : PatchName) (cid : Oid)
  | newUnappliedM (pn : PatchName) (cid : Oid) (pos : Nat)
  | pushTreeM (pn : PatchName) (isLast : Bool)
  | pushM (env : Env) (pns : List PatchName) (cm : Bool)
  | popM (pred : PatchName → Bool)
  | deleteM (pred : PatchName → Bool)
  | reorderM (env : Env) (a u h : Option (List PatchName))
  | repairM (a u h : List PatchName)
  | commitM (env : Env) (toCommit : List PatchName)
  | uncommitM (ps : List (PatchName × Oid))
  | hideM (env : Env) (pns : List PatchName)
  | unhideM (env : Env) (pns : List PatchName)
  | renameM (o n : PatchName)
  | resetM (state : StackState)
  | resetPartialM (env : Env) (state : StackState) (pns : List PatchName)

/-- Run a mutation method, discarding any non-unit payload. -/

def applyMutation : Mutation → St → Except TErr Unit × St
  | .updateM pn cid, s => updatePatch pn cid s
  | .newAppliedM pn cid, s => newApplied pn cid s
  | .newUnappliedM pn cid pos, s => newUnapplied pn cid pos s
  | .pushTreeM pn il, s => pushTree pn il s
  | .pushM env pns cm, s => pushPatches env pns cm s
  | .popM p, s => ((popPatches p s).1.map (fun _ => ()), (popPatches p s).2)
  | .deleteM p, s =>
    ((deletePatches p s).1.map (fun _ => ()), (deletePatches p s).2)
  | .reorderM env a u h, s => reorderPatches env a u h s
  | .repairM a u h, s => repairAppliedness a u h s
  | .commitM env tc, s => commitPatches env tc s
  | .uncommitM ps, s => uncommitPatches ps s
  | .hideM env pns, s => hidePatches env pns s
  | .unhideM env pns, s => unhidePatches env pns s
  | .renameM o n, s => renamePatch o n s
  | .resetM st0, s => resetToState st0 s
  | .resetPartialM env st0 pns, s => resetToStatePartially env st0 pns s

/-- Validity of a mutation call, as the callers are expected to ensure:
fresh names for patch creation, names taken from the expected source lists
for push/hide/unhide, a full complement of duplicate-free lists for
reorder/reset, and patches already at the bottom of the applied list for
commit. -/

def validCall : Mutation → St → Prop
  | .updateM _ _, _ => True
  | .newAppliedM pn _, s => pn ∉ s.trans.allPatches
  | .newUnappliedM pn _ _, s => pn ∉ s.trans.allPatches
  | .pushTreeM _ _, _ => True
  | .pushM _ pns _, s =>
    pns.Nodup ∧ ∀ x ∈ pns, x ∈ s.trans.unapplied ∨ x ∈ s.trans.hidden
  | .popM _, _ => True
  | .deleteM _, _ => True
  | .reorderM _ a u h, s =>
    match a with
    | none =>
      (s.trans.applied ++ u.getD s.trans.unapplied ++
        h.getD s.trans.hidden).Nodup
    | some aL => ∃ uL hL, u = some uL ∧ h = some hL ∧ (aL ++ uL ++ hL).Nodup
  | .repairM _ _ _, _ => True
  | .commitM _ tc, s => s.trans.applied.take tc.length = tc
  | .uncommitM ps, s =>
    (ps.map Prod.fst).Nodup ∧ ∀ x ∈ ps.map Prod.fst, x ∉ s.trans.allPatches
  | .hideM _ pns, s =>
    pns.Nodup ∧ ∀ x ∈ pns, x ∈ s.trans.applied ∨ x ∈ s.trans.unapplied
  | .unhideM _ pns, s => pns.Nodup ∧ ∀ x ∈ pns, x ∈ s.trans.hidden
  | .renameM o n, s => n = o ∨ n ∉ s.trans.allPatches
  | .resetM st0, _ => (st0.applied ++ st0.unapplied ++ st0.hidden).Nodup
  | .resetPartialM _ _ _, _ => True

/-- The concrete world extended with commit 16 (tree 26) sitting on the
current top commit 13, eligible for `new_applied`. -/

def stC4 : St :=
  { st5 with repo :=
    { commits := st5.repo.commits ++ [(16, ⟨26, [13], 7, 7, 7⟩)],
      next := 100 } }

/-- Counterexample to C4 as stated: the lists of the concrete world are
pairwise disjoint, yet `new_applied` with the name of the unapplied patch 4
returns Ok (lines 430-438 never check the name) and leaves 4 both applied
and unapplied. -/

theorem bindR_ok {α β : Type} (a : α) (s : St) (f : α → St → Res β) :
    bindR (.ok a, s) f = f a s := rfl

theorem bindR_error {α β : Type} (e : TErr) (s : St) (f : α → St → Res β) :
    bindR (.error e, s) f = (.error e, s) := rfl

/-- `StackStateAccess::all_patches` for the transaction (chained lists). -/

theorem claim_C5_pop_patches (s : St) (shouldPop : PatchName → Bool) :
    (∀ i, s.trans.applied.findIdx? shouldPop = some i →
      (popPatches shouldPop s).2.trans.applied = s.trans.applied.take i ∧
      (popPatches shouldPop s).2.trans.unapplied =
        (s.trans.applied.drop i).filter (fun pn => !shouldPop pn) ++
        (s.trans.applied.drop i).filter shouldPop ++ s.trans.unapplied ∧
      (popPatches shouldPop s).2.trans.hidden = s.trans.hidden ∧
      (popPatches shouldPop s).1 =
        .ok ((s.trans.applied.drop i).filter (fun pn => !shouldPop pn))) ∧
    (s.trans.applied.findIdx? shouldPop = none →
      popPatches shouldPop s = (.ok [], s)) := by
  constructor
  · intro i hi
    simp only [popPatches, hi, printPopped, emit]
    split <;> simp
  · intro hn
    simp [popPatches, hn, printPopped]

/-- Default transaction options used by the concrete test worlds. -/

theorem claim_C5_pop_patches_witness :
    (popPatches (fun pn => pn == 2) st5).2.trans.applied = [1] ∧
    (popPatches (fun pn => pn == 2) st5).2.trans.unapplied = [3, 2, 4] ∧
    (popPatches (fun pn => pn == 2) st5).1 = .ok [3] := by
  have h := (claim_C5_pop_patches st5 (fun pn => pn == 2)).1 1 (by decide)
  refine ⟨?_, ?_, ?_⟩
  · rw [h.1]; decide
  · rw [h.2.1]; decide
  · rw [h.2.2.2]; rfl

/-- C9: whenever `rename_patch` returns an error (a collision with a live
patch, or a nonexistent old name) — as opposed to succeeding or panicking —
the whole world, in particular the three lists and `updated_patches`, is
exactly as before the call. -/

theorem claim_C9_rename_error_unchanged (s : St) (oldPn newPn : PatchName)
    (m : String)
    (h : (renamePatch oldPn newPn s).1 = .error (.other m)) :
    (renamePatch oldPn newPn s).2 = s := by
  unfold renamePatch at h ⊢
  split at h
  · simp at h
  · split at h
    · simp_all
    · unfold renameApply at h ⊢
      split at h
      · rcases hg : s.trans.stack.getPatch oldPn with _ | patch <;>
          rw [hg] at h <;> simp at h
      · simp at h

theorem bindR_ok_elim {α β : Type} {x : Res α} {f : α → St → Res β} {b : β}
    (h : (bindR x f).1 = .ok b) :
    ∃ a, x = (.ok a, x.2) ∧ bindR x f = f a x.2 := by
  rcases x with ⟨e, s⟩
  cases e with
  | ok a => exact ⟨a, rfl, rfl⟩
  | error e => simp [bindR] at h

/-- On success, `reorder_patches` with all three lists provided leaves
exactly those lists in the transaction (the applied list via the internal
assertion, the other two by wholesale assignment). -/

theorem reorderApplied_ok_applied (env : Env) (A : List PatchName)
    (s0 : St) (a0 : Unit)
    (h0 : (reorderApplied env A s0).1 = .ok a0) :
    (reorderApplied env A s0).2.trans.applied = A := by
  unfold reorderApplied at h0 ⊢
  obtain ⟨a1, hx1, heq1⟩ := bindR_ok_elim h0
  rw [heq1] at h0 ⊢
  obtain ⟨a2, hx2, heq2⟩ := bindR_ok_elim h0
  rw [heq2] at h0 ⊢
  split at h0
  next h3 =>
    rw [if_pos h3]
    split
    · split <;> exact h3
    · exact h3
  next h3 => simp at h0

/-- On success, `reorder_patches` with all three lists provided leaves
exactly those lists in the transaction (the applied list via the internal
assertion, the other two by wholesale assignment). -/

theorem reorder_ok_lists (env : Env) (s : St) (A U H : List PatchName)
    (hok : (reorderPatches env (some A) (some U) (some H) s).1 = .ok ()) :
    (reorderPatches env (some A) (some U) (some H) s).2.trans.applied = A ∧
    (reorderPatches env (some A) (some U) (some H) s).2.trans.unapplied = U ∧
    (reorderPatches env (some A) (some U) (some H) s).2.trans.hidden = H := by
  have hdef : reorderPatches env (some A) (some U) (some H) s =
      bindR (reorderApplied env A s)
        (fun _ s => (Except.ok (), reorderAssign (some U) (some H) s)) := rfl
  rw [hdef] at hok ⊢
  obtain ⟨a, hx, heq⟩ := bindR_ok_elim hok
  rw [heq]
  have hstep : (reorderApplied env A s).1 = .ok a := by
    rw [show (reorderApplied env A s).1 = ((reorderApplied env A s).1,
      (reorderApplied env A s).2).1 from rfl]
    rw [show ((reorderApplied env A s).1, (reorderApplied env A s).2) =
      reorderApplied env A s from rfl, hx]
  have happ := reorderApplied_ok_applied env A s a hstep
  simp [reorderAssign, happ]

/-- A benign capability environment: no conflicts anywhere, every external
operation succeeds. -/

theorem printHidden_lists (pns : List PatchName) (w : St) :
    (printHidden pns w).trans.applied = w.trans.applied ∧
    (printHidden pns w).trans.unapplied = w.trans.unapplied ∧
    (printHidden pns w).trans.hidden = w.trans.hidden := by
  unfold printHidden emit
  split <;> simp

/-- C10: a successful `hide_patches(to_hide)` whose names are all applied
or unapplied makes the hidden list `to_hide` (in argument order) followed
by the previous hidden list, and keeps the relative order of the remaining
applied and unapplied patches (they are exactly the previous lists filtered
by membership in `to_hide`). -/

theorem claim_C10_hide_patches (env : Env) (s : St) (toHide : List PatchName)
    (hok : (hidePatches env toHide s).1 = .ok ())
    (_hmem : ∀ pn ∈ toHide, pn ∈ s.trans.applied ∨ pn ∈ s.trans.unapplied) :
    (hidePatches env toHide s).2.trans.hidden = toHide ++ s.trans.hidden ∧
    (hidePatches env toHide s).2.trans.applied =
      s.trans.applied.filter (fun pn => !toHide.contains pn) ∧
    (hidePatches env toHide s).2.trans.unapplied =
      s.trans.unapplied.filter (fun pn => !toHide.contains pn) := by
  unfold hidePatches at hok ⊢
  obtain ⟨a, hx, heq⟩ := bindR_ok_elim hok
  rw [heq]
  have hro : (reorderPatches env
      (some (s.trans.applied.filter (fun pn => !toHide.contains pn)))
      (some (s.trans.unapplied.filter (fun pn => !toHide.contains pn)))
      (some (toHide ++ s.trans.hidden)) s).1 = .ok () := by
    rw [hx]
  have h3 := reorder_ok_lists env s _ _ _ hro
  have hp := printHidden_lists toHide (reorderPatches env
      (some (s.trans.applied.filter (fun pn => !toHide.contains pn)))
      (some (s.trans.unapplied.filter (fun pn => !toHide.contains pn)))
      (some (toHide ++ s.trans.hidden)) s).2
  exact ⟨hp.2.2.trans h3.2.2, hp.1.trans h3.1, hp.2.1.trans h3.2.1⟩

/-- Witness for C10: hiding unapplied patch 4 in the concrete world yields
hidden [4, 5], applied [1, 2, 3] and empty unapplied. -/

theorem claim_C10_hide_patches_witness :
    (hidePatches envD [4] st5).1 = .ok () ∧
    (hidePatches envD [4] st5).2.trans.hidden = [4, 5] ∧
    (hidePatches envD [4] st5).2.trans.applied = [1, 2, 3] ∧
    (hidePatches envD [4] st5).2.trans.unapplied = [] := by
  have h := claim_C10_hide_patches envD st5 [4] (by rfl) (by decide)
  refine ⟨by rfl, ?_, ?_, ?_⟩
  · rw [h.1]; rfl
  · rw [h.2.1]; rfl
  · rw [h.2.2]; rfl

theorem countCommonPrefix_self (l : List PatchName) :
    countCommonPrefix l l = l.length := by
  induction l with
  | nil => rfl
  | cons a t ih => simp [countCommonPrefix, ih]

theorem popPatches_nomatch (s : St) (p : PatchName → Bool)
    (h : s.trans.applied.findIdx? p = none) : popPatches p s = (.ok [], s) := by
  simp [popPatches, h, printPopped]

theorem pushPatches_nil (env : Env) (s : St) :
    pushPatches env [] false s = (.ok (), s) := by
  simp [pushPatches, pushPatchesLoop]

/-- Counterexample to C8 as stated: reordering with exactly the current
lists in the concrete world emits a print-pushed UI event for the current
top patch (the claim asserts no UI events are emitted). -/

theorem claim_C8_reorder_noop_counterexample :
    (reorderPatches envD (some [1, 2, 3]) (some [4]) (some [5]) st5).2.trace =
      st5.trace ++ [Event.pushed 3 PushStatus.unmodified true] ∧
    st5.trace = [] ∧
    st5.trans.applied = [1, 2, 3] ∧ st5.trans.unapplied = [4] ∧
    st5.trans.hidden = [5] := by
  refine ⟨by rfl, by rfl, by rfl, by rfl, by rfl⟩

/-- C8 (amended): `reorder_patches` with exactly the current applied,
unapplied and hidden lists succeeds and is a no-op on the three lists,
`updated_patches`, the updated head/base and the current tree id; it emits
no UI events when the applied list is empty, but emits a single
print-pushed event for the current top patch when it is nonempty. -/

theorem claim_C8_reorder_noop_amended (env : Env) (s : St) :
    (reorderPatches env (some s.trans.applied) (some s.trans.unapplied)
      (some s.trans.hidden) s).1 = .ok () ∧
    (reorderPatches env (some s.trans.applied) (some s.trans.unapplied)
      (some s.trans.hidden) s).2.trans.applied = s.trans.applied ∧
    (reorderPatches env (some s.trans.applied) (some s.trans.unapplied)
      (some s.trans.hidden) s).2.trans.unapplied = s.trans.unapplied ∧
    (reorderPatches env (some s.trans.applied) (some s.trans.unapplied)
      (some s.trans.hidden) s).2.trans.hidden = s.trans.hidden ∧
    (reorderPatches env (some s.trans.applied) (some s.trans.unapplied)
      (some s.trans.hidden) s).2.trans.updatedPatches =
        s.trans.updatedPatches ∧
    (reorderPatches env (some s.trans.applied) (some s.trans.unapplied)
      (some s.trans.hidden) s).2.trans.updatedHead = s.trans.updatedHead ∧
    (reorderPatches env (some s.trans.applied) (some s.trans.unapplied)
      (some s.trans.hidden) s).2.trans.updatedBase = s.trans.updatedBase ∧
    (reorderPatches env (some s.trans.applied) (some s.trans.unapplied)
      (some s.trans.hidden) s).2.trans.currentTreeId =
        s.trans.currentTreeId ∧
    (reorderPatches env (some s.trans.applied) (some s.trans.unapplied)
      (some s.trans.hidden) s).2.trace = s.trace ++
        (match s.trans.applied.getLast? with
         | some lastPn => [Event.pushed lastPn PushStatus.unmodified true]
         | none => []) := by
  have hfn : s.trans.applied.findIdx? (fun pn =>
      (fromListIS (s.trans.applied.drop
        (countCommonPrefix s.trans.applied s.trans.applied))).contains pn) =
      none := by
    rw [countCommonPrefix_self, List.drop_length]
    rw [List.findIdx?_eq_none_iff]
    intro x _
    rfl
  have hra : reorderApplied env s.trans.applied s =
      (if s.trans.applied = s.trans.applied then
        if (s.trans.applied.drop
            (countCommonPrefix s.trans.applied s.trans.applied)).isEmpty then
          match s.trans.applied.getLast? with
          | some lastPn => (.ok (), printPushed lastPn .unmodified true s)
          | none => (.ok (), s)
        else (.ok (), s)
      else (.error (.panic "assert_eq self.applied applied"), s)) := by
    unfold reorderApplied
    rw [popPatches_nomatch s _ hfn]
    rw [bindR_ok]
    rw [countCommonPrefix_self, List.drop_length, pushPatches_nil, bindR_ok]
  rw [countCommonPrefix_self, List.drop_length] at hra
  simp only [if_pos rfl, List.isEmpty_nil, if_true] at hra
  have hdef : reorderPatches env (some s.trans.applied)
      (some s.trans.unapplied) (some s.trans.hidden) s =
      bindR (reorderApplied env s.trans.applied s)
        (fun _ s1 => (Except.ok (),
          reorderAssign (some s.trans.unapplied) (some s.trans.hidden) s1)) :=
    rfl
  rw [hdef, hra]
  cases hl : s.trans.applied.getLast? with
  | some lastPn =>
    simp [bindR, reorderAssign, printPushed, emit]
  | none =>
    simp [bindR, reorderAssign]

theorem lookupA_insertB {β : Type} (k : Nat) (v : β) (m : List (Nat × β)) :
    lookupA k (insertB k v m) = some v := by
  induction m with
  | nil => simp [insertB, lookupA]
  | cons p rest ih =>
    by_cases h1 : k < p.1
    · simp [insertB, h1, lookupA]
    · by_cases h2 : k = p.1
      · simp [insertB, h1, h2, lookupA]
      · simp [insertB, h1, h2, lookupA, ih]

theorem lookupA_insertB_ne {β : Type} (k k' : Nat) (v : β)
    (m : List (Nat × β)) (h : k' ≠ k) :
    lookupA k' (insertB k v m) = lookupA k' m := by
  induction m with
  | nil => simp [insertB, lookupA, h]
  | cons p rest ih =>
    by_cases h1 : k < p.1
    · simp [insertB, h1, lookupA, h]
    · by_cases h2 : k = p.1
      · subst h2
        simp [insertB, h1, lookupA, h]
      · simp only [insertB, if_neg h1, if_neg h2, lookupA]
        by_cases h3 : k' = p.1
        · simp [h3]
        · simp [h3, ih]

/-- The merge orchestration always records the tree-diff application
against the temp index. -/

theorem pushPatchMerge_applyEvent (env : Env) (pn : PatchName)
    (base ours theirs : Oid) (tempIdx : Option Oid) (s : St) :
    Event.applyTreediff base theirs ∈
      (pushPatchMerge env pn base ours theirs tempIdx s).2.2.trace := by
  unfold pushPatchMerge
  by_cases h0 : tempIdx ≠ some ours <;>
    simp only [h0, if_true, if_false, ite_true, ite_false] <;>
    (repeat' split) <;> simp_all [emit]

/-- C3: the new-tree selection of `push_patch` (lines 920-944), with
`old_parent` the patch commit's first parent and `new_parent` the current
top: an AlreadyMerged patch gets new_parent's tree; else equal old/new
parent trees keep the patch's tree; else a patch tree equal to old_parent's
tree gets new_parent's tree; else a patch tree equal to new_parent's tree
keeps the patch's tree; in all four fast cases the world is untouched (no
merge performed); only when none of them holds does the three-way merge
machinery start (a tree-diff application against the temp index, recorded
in the trace). -/

theorem claim_C3_push_new_tree (env : Env) (s : St) (pn : PatchName)
    (am : Bool) (patchTree oldParentTree newParentTree : Oid)
    (tempIdx : Option Oid) :
    (am = true →
      pushPatchCompute env pn am patchTree oldParentTree newParentTree
        tempIdx s = (.ok (newParentTree, .alreadyMerged), tempIdx, s)) ∧
    (am = false → oldParentTree = newParentTree →
      pushPatchCompute env pn am patchTree oldParentTree newParentTree
        tempIdx s = (.ok (patchTree, .unmodified), tempIdx, s)) ∧
    (am = false → oldParentTree ≠ newParentTree →
      oldParentTree = patchTree →
      pushPatchCompute env pn am patchTree oldParentTree newParentTree
        tempIdx s = (.ok (newParentTree, .unmodified), tempIdx, s)) ∧
    (am = false → oldParentTree ≠ newParentTree →
      oldParentTree ≠ patchTree → newParentTree = patchTree →
      pushPatchCompute env pn am patchTree oldParentTree newParentTree
        tempIdx s = (.ok (patchTree, .unmodified), tempIdx, s)) ∧
    (am = false → oldParentTree ≠ newParentTree →
      oldParentTree ≠ patchTree → newParentTree ≠ patchTree →
      Event.applyTreediff oldParentTree
          (if tempIdx = some patchTree then newParentTree else patchTree) ∈
        (pushPatchCompute env pn am patchTree oldParentTree newParentTree
          tempIdx s).2.2.trace) := by
  refine ⟨?_, ?_, ?_, ?_, ?_⟩
  · intro h1
    simp [pushPatchCompute, h1]
  · intro h1 h2
    simp [pushPatchCompute, h1, h2]
  · intro h1 h2 h3
    simp [pushPatchCompute, h1, h2, h3]
  · intro h1 h2 h3 h4
    simp [pushPatchCompute, h1, h2, h3, h4]
  · intro h1 h2 h3 h4
    simp only [pushPatchCompute, h1, h2, h3, h4, Bool.false_eq_true,
      if_false, if_neg h2, if_neg h3, if_neg h4]
    exact pushPatchMerge_applyEvent env pn oldParentTree _ _ tempIdx s

/-- Witness for C3: in the concrete world, a push whose old and new parent
trees agree keeps the patch's tree, and an AlreadyMerged push takes the new
parent's tree; both leave the world untouched. -/

theorem claim_C3_push_new_tree_witness :
    pushPatchCompute envD 1 false 21 20 20 none st5 =
      (.ok (21, .unmodified), none, st5) ∧
    pushPatchCompute envD 1 true 21 20 30 none st5 =
      (.ok (30, .alreadyMerged), none, st5) := by
  constructor
  · exact (claim_C3_push_new_tree envD st5 1 false 21 20 20 none).2.1 rfl rfl
  · exact (claim_C3_push_new_tree envD st5 1 true 21 20 30 none).1 rfl

/-- C7 (failing input): renaming live patch 1 to the fresh name 6 succeeds,
but the round-trip rename 6 back to 1 panics: line 741 looks the old name
(6) up in the original stack, which has no patch 6, instead of in the
transaction's updated view — so the round trip can never restore the
initial state. -/

theorem claim_C7_rename_roundtrip_bug :
    (renamePatch 1 6 st5).1 = .ok () ∧
    (bindR (renamePatch 1 6 st5) (fun _ s => renamePatch 6 1 s)).1 =
      .error (.panic "stack.get_patch(old_patchname)") := by
  exact ⟨rfl, rfl⟩

/-- Counterexample to C6 as stated: with the bad-head precheck armed
(`allow_bad_head` false) and a stack whose recorded head is not its top,
checkout in `ConflictMode::Allow` with the worktree already at the target
tree returns an error, not Ok. -/

theorem claim_C6_checkout_counterexample :
    (checkout envD (Stack.mk 12 10 st5.trans.stack.state)
      { optsD with conflictMode := .allow } 23 (some 3) 13 st5).1 =
      .error (.other "head and top are not the same") ∧
    st5.repo.treeOf 13 = some 23 := by
  exact ⟨rfl, rfl⟩

/-- C6 (amended): provided the bad-head precheck passes (`allow_bad_head`
set, or the stack's head equals its top), the checkout routine behaves by
cases: worktree already at the target tree and not discarding — Allow is a
silent no-op, AllowIfSameTop enumerates statuses and fails on conflicts
exactly when the transaction top is absent or differs from the stack's last
applied patch, Disallow always enumerates statuses and fails on conflicts;
when discarding changes (whether or not the trees differ) a hard read-tree
checkout of the target tree is performed; otherwise the index is refreshed
and a read-tree checkout from the current tree to the target is attempted,
its failure wrapped as `CheckoutConflicts`. -/

theorem claim_C6_checkout_amended (env : Env) (stackArg : Stack)
    (options : TransactionOptions) (currentTreeId : Oid)
    (transTop : Option PatchName) (commitOid : Oid) (s : St) (ct : Oid)
    (hbad : options.allowBadHead = true ∨ stackArg.isHeadTop = true)
    (hct : s.repo.treeOf commitOid = some ct) :
    (ct = currentTreeId → options.discardChanges = false →
      options.conflictMode = .allow →
      checkout env stackArg options currentTreeId transTop commitOid s =
        (.ok (), s)) ∧
    (ct = currentTreeId → options.discardChanges = false →
      options.conflictMode = .allowIfSameTop →
      (transTop = none ∨ transTop ≠ stackArg.state.applied.getLast?) →
      (checkout env stackArg options currentTreeId transTop commitOid s).2 =
        emit .statuses s ∧
      ((checkout env stackArg options currentTreeId transTop commitOid s).1 =
        .ok () ↔ env.statusesConflict = false)) ∧
    (ct = currentTreeId → options.discardChanges = false →
      options.conflictMode = .allowIfSameTop →
      transTop ≠ none → transTop = stackArg.state.applied.getLast? →
      checkout env stackArg options currentTreeId transTop commitOid s =
        (.ok (), s)) ∧
    (ct = currentTreeId → options.discardChanges = false →
      options.conflictMode = .disallow →
      (checkout env stackArg options currentTreeId transTop commitOid s).2 =
        emit .statuses s ∧
      ((checkout env stackArg options currentTreeId transTop commitOid s).1 =
        .ok () ↔ env.statusesConflict = false)) ∧
    (options.discardChanges = true →
      (checkout env stackArg options currentTreeId transTop commitOid s).2 =
        emit (.readTreeCheckoutHard ct) s ∧
      ((checkout env stackArg options currentTreeId transTop commitOid s).1 =
        .ok () ↔ env.hardCheckoutOk ct = true)) ∧
    (ct ≠ currentTreeId → options.discardChanges = false →
      env.indexRefreshOk = true →
      (checkout env stackArg options currentTreeId transTop commitOid s).2 =
        emit (.readTreeCheckout currentTreeId ct)
          (emit .updateIndexRefresh s) ∧
      ((checkout env stackArg options currentTreeId transTop commitOid s).1 =
        .ok () ↔ env.readTreeCheckoutOk currentTreeId ct = true) ∧
      (env.readTreeCheckoutOk currentTreeId ct = false →
        (checkout env stackArg options currentTreeId transTop commitOid s).1 =
          .error (.checkoutConflicts "read_tree_checkout"))) := by
  have hpre : ¬(!options.allowBadHead && !stackArg.isHeadTop) = true := by
    rcases hbad with h | h <;> simp [h]
  refine ⟨?_, ?_, ?_, ?_, ?_, ?_⟩
  · intro h1 h2 h3
    simp [checkout, hpre, hct, h1, h2, h3]
  · intro h1 h2 h3 h4
    rcases h4 with h4 | h4 <;>
      constructor <;>
      · simp [checkout, hpre, hct, h1, h2, h3, h4]
        split <;> simp_all
  · intro h1 h2 h3 h4 h5
    rw [h5] at h4
    simp [checkout, hpre, hct, h1, h2, h3, h5, h4, Option.isNone_iff_eq_none]
  · intro h1 h2 h3
    constructor <;>
    · simp [checkout, hpre, hct, h1, h2, h3]
      split <;> simp_all
  · intro h1
    constructor <;>
    · simp [checkout, hpre, hct, h1]
      split <;> simp_all
  · intro h1 h2 h3
    refine ⟨?_, ?_, ?_⟩ <;>
    · simp [checkout, hpre, hct, h1, h2, h3, Ne.symm h1]
      try (split <;> simp_all)

/-- Witness for C6 (amended): with head equal to top, worktree at the
target tree and `ConflictMode::Allow`, checkout is a silent no-op. -/

theorem claim_C6_checkout_amended_witness :
    checkout envD st5.trans.stack { optsD with conflictMode := .allow } 23
      (some 3) 13 st5 = (.ok (), st5) := by
  exact (claim_C6_checkout_amended envD st5.trans.stack
    { optsD with conflictMode := .allow } 23 (some 3) 13 st5 23
    (Or.inr (by decide)) (by rfl)).1 rfl rfl rfl

/-- The merge orchestration never touches the patch lists, the updated
patches, the updated head/base or the repository. -/

theorem pushPatchMerge_immutable (env : Env) (pn : PatchName)
    (base ours theirs : Oid) (tempIdx : Option Oid) (s : St) :
    (pushPatchMerge env pn base ours theirs tempIdx s).2.2.trans.applied =
      s.trans.applied ∧
    (pushPatchMerge env pn base ours theirs tempIdx s).2.2.trans.unapplied =
      s.trans.unapplied ∧
    (pushPatchMerge env pn base ours theirs tempIdx s).2.2.trans.hidden =
      s.trans.hidden ∧
    (pushPatchMerge env pn base ours theirs tempIdx
      s).2.2.trans.updatedPatches = s.trans.updatedPatches ∧
    (pushPatchMerge env pn base ours theirs tempIdx s).2.2.trans.updatedHead =
      s.trans.updatedHead ∧
    (pushPatchMerge env pn base ours theirs tempIdx s).2.2.trans.options =
      s.trans.options ∧
    (pushPatchMerge env pn base ours theirs tempIdx s).2.2.repo = s.repo := by
  unfold pushPatchMerge
  by_cases h0 : tempIdx ≠ some ours <;>
    simp only [h0, if_true, if_false, ite_true, ite_false] <;>
    (repeat' split) <;> simp_all [emit]

/-- The merge orchestration on the conflicting path: tree-diff apply
refuses, worktree available and checked out, recursive merge leaves
conflicts.  Result: tree `ours`, status Conflict, current tree id advanced
to `ours`, nothing else of the transaction changed. -/

theorem pushPatchMerge_conflict (env : Env) (pn : PatchName)
    (base ours theirs : Oid) (tempIdx : Option Oid) (s : St)
    (happly : env.applyTreediff (some ours) base theirs = .ok false)
    (huiw : s.trans.options.useIndexAndWorktree = true)
    (hrtc : env.readTreeCheckoutOk s.trans.currentTreeId ours = true)
    (hmerge : env.mergeResult base ours theirs = .ok false) :
    (pushPatchMerge env pn base ours theirs tempIdx s).1 =
      .ok (ours, .conflict) ∧
    (pushPatchMerge env pn base ours theirs tempIdx s).2.2.trans =
      { s.trans with currentTreeId := ours } ∧
    (pushPatchMerge env pn base ours theirs tempIdx s).2.2.repo = s.repo ∧
    Event.mergeRecursive base ours theirs ∈
      (pushPatchMerge env pn base ours theirs tempIdx s).2.2.trace := by
  unfold pushPatchMerge
  by_cases h0 : tempIdx ≠ some ours <;>
    simp [h0, happly, huiw, hrtc, hmerge, emit]

/-- Finishing a push whose status is Conflict (with a real tree or parent
change): the conflict halt is returned, the conflict mode is flipped, the
fresh commit (tree `newTreeId`, sole parent the new parent) is stored as
updated head and as the patch's state, and the patch moves into applied. -/

theorem pushPatchFinish_conflict (pn : PatchName) (isLast : Bool) (pc : Oid)
    (pcd : CommitData) (opOid npOid npdTree nt : Oid) (s : St)
    (hsyn : nt ≠ pcd.tree ∨ npOid ≠ opOid) :
    (pushPatchFinish pn isLast pc pcd opOid npOid npdTree nt .conflict s).1 =
      .error (.transactionHalt "Merge conflicts" true) ∧
    (pushPatchFinish pn isLast pc pcd opOid npOid npdTree nt .conflict
      s).2.trans.options.conflictMode = .allow ∧
    (pushPatchFinish pn isLast pc pcd opOid npOid npdTree nt .conflict
      s).2.trans.updatedHead = some s.repo.next ∧
    (pushPatchFinish pn isLast pc pcd opOid npOid npdTree nt .conflict
      s).2.repo.find s.repo.next =
      some ⟨nt, [npOid], pcd.author, defaultCommitter, pcd.message⟩ ∧
    (pushPatchFinish pn isLast pc pcd opOid npOid npdTree nt .conflict
      s).2.trans.getPatchCommit pn = some s.repo.next ∧
    (pushPatchFinish pn isLast pc pcd opOid npOid npdTree nt .conflict
      s).2.trans.applied = s.trans.applied ++ [pn] ∧
    (pn ∈ s.trans.unapplied →
      (pushPatchFinish pn isLast pc pcd opOid npOid npdTree nt .conflict
        s).2.trans.unapplied = s.trans.unapplied.erase pn ∧
      (pushPatchFinish pn isLast pc pcd opOid npOid npdTree nt .conflict
        s).2.trans.hidden = s.trans.hidden) ∧
    (pn ∉ s.trans.unapplied →
      (pushPatchFinish pn isLast pc pcd opOid npOid npdTree nt .conflict
        s).2.trans.unapplied = s.trans.unapplied ∧
      (pushPatchFinish pn isLast pc pcd opOid npOid npdTree nt .conflict
        s).2.trans.hidden = s.trans.hidden.erase pn) := by
  unfold pushPatchFinish
  rw [if_pos hsyn]
  simp only [Repo.commitEx, emit, setUpdated, printPushed,
    eq_self_iff_true, if_true]
  by_cases hmem2 : pn ∈ s.trans.unapplied
  · rw [if_pos hmem2]
    refine ⟨?_, ?_, ?_, ?_, ?_, ?_, ?_, ?_⟩
    · trivial
    · first | trivial | (split <;> rfl)
    · first | trivial | (split <;> rfl)
    · first | trivial | (split <;> simp [Repo.find, lookupA_insertB])
    · first
      | trivial
      | (split <;>
          simp [StackTransaction.getPatchCommit,
            StackTransaction.getPatchState, lookupA_insertB])
    · first | trivial | (split <;> rfl)
    · intro _
      exact ⟨by first | trivial | (split <;> rfl), by first | trivial | (split <;> rfl)⟩
    · intro hx
      exact absurd hmem2 hx
  · rw [if_neg hmem2]
    by_cases hmem3 : pn ∈ s.trans.hidden
    · rw [if_pos hmem3]
      refine ⟨?_, ?_, ?_, ?_, ?_, ?_, ?_, ?_⟩
      · trivial
      · first | trivial | (split <;> rfl)
      · first | trivial | (split <;> rfl)
      · first | trivial | (split <;> simp [Repo.find, lookupA_insertB])
      · first
        | trivial
        | (split <;>
            simp [StackTransaction.getPatchCommit,
              StackTransaction.getPatchState, lookupA_insertB])
      · first | trivial | (split <;> rfl)
      · intro hx
        exact absurd hx hmem2
      · intro _
        exact ⟨by first | trivial | (split <;> rfl), by first | trivial | (split <;> rfl)⟩
    · rw [if_neg hmem3]
      refine ⟨?_, ?_, ?_, ?_, ?_, ?_, ?_, ?_⟩
      · trivial
      · first | trivial | (split <;> rfl)
      · first | trivial | (split <;> rfl)
      · first | trivial | (split <;> simp [Repo.find, lookupA_insertB])
      · first
        | trivial
        | (split <;>
            simp [StackTransaction.getPatchCommit,
              StackTransaction.getPatchState, lookupA_insertB])
      · first | trivial | (split <;> rfl)
      · intro hx
        exact absurd hx hmem2
      · intro _
        refine ⟨by first | trivial | (split <;> rfl), ?_⟩
        rw [List.erase_of_not_mem hmem3]
        first | trivial | (split <;> rfl)

theorem pushPatchCompute_applied (env : Env) (pn : PatchName) (am : Bool)
    (pt opt npt : Oid) (tempIdx : Option Oid) (s : St) :
    (pushPatchCompute env pn am pt opt npt tempIdx s).2.2.trans.applied =
      s.trans.applied := by
  unfold pushPatchCompute
  split
  · rfl
  · split
    · rfl
    · split
      · rfl
      · split
        · rfl
        · exact (pushPatchMerge_immutable env pn opt _ _ tempIdx s).1

/-- `push_patch`'s finishing stage always moves the patch into applied and
returns either Ok or the conflicts=true halt. -/

theorem pushPatchFinish_classify (pn : PatchName) (isLast : Bool) (pc : Oid)
    (pcd : CommitData) (opOid npOid npdTree nt : Oid) (st0 : PushStatus)
    (s : St) :
    ((pushPatchFinish pn isLast pc pcd opOid npOid npdTree nt st0 s).1 =
        .ok () ∨
      (pushPatchFinish pn isLast pc pcd opOid npOid npdTree nt st0 s).1 =
        .error (.transactionHalt "Merge conflicts" true)) ∧
    (pushPatchFinish pn isLast pc pcd opOid npOid npdTree nt st0
      s).2.trans.applied = s.trans.applied ++ [pn] := by
  unfold pushPatchFinish
  by_cases hc : st0 = PushStatus.conflict
  · subst hc
    constructor
    · repeat' split
      all_goals simp_all [printPushed, emit]
    · simp only [eq_self_iff_true, if_true]
      repeat' split
      all_goals try dsimp only [printPushed, emit, setUpdated]
      all_goals repeat' split
      all_goals rfl
  · constructor
    · repeat' split
      all_goals simp_all [printPushed, emit]
    · simp only [if_neg hc]
      repeat' split
      all_goals try dsimp only [printPushed, emit, setUpdated]
      all_goals repeat' split
      all_goals rfl

/-- C2: a `push_patch` whose three-way merge completes with conflicts (the
merge capability reports unclean but non-fatal): the push status becomes
Conflict, so `options.conflict_mode` is flipped to Allow, a fresh commit
with the conflicted tree `ours` and the new parent (the former top) as its
sole parent is synthesized and stored as `updated_head` (and as the patch's
updated state), the patch is still moved from unapplied/hidden into
applied, and the method returns `TransactionHalt` with conflicts=true.
Moreover (second conjunct, universally): every `push_patch` run either
completes — moving the patch into applied — returning Ok or the
conflicts=true halt, or exits early with an error leaving the applied list
unchanged; so every run that completes without conflict returns Ok. -/

theorem claim_C2_push_conflict (env : Env) (s : St) (pn : PatchName)
    (isLast : Bool) (tempIdx : Option Oid) (pc : Oid) (pcd : CommitData)
    (opOid : Oid) (opd : CommitData) (npOid : Oid) (npd : CommitData)
    (ours theirs : Oid)
    (hpc : s.trans.getPatchCommit pn = some pc)
    (hfind : s.repo.find pc = some pcd)
    (hpar : pcd.parents.head? = some opOid)
    (hop : s.repo.find opOid = some opd)
    (htop : s.trans.topO = some npOid)
    (hnp : s.repo.find npOid = some npd)
    (hne1 : opd.tree ≠ npd.tree) (hne2 : opd.tree ≠ pcd.tree)
    (hne3 : npd.tree ≠ pcd.tree)
    (hours : ours = if tempIdx = some pcd.tree then pcd.tree else npd.tree)
    (htheirs : theirs =
      if tempIdx = some pcd.tree then npd.tree else pcd.tree)
    (happly : env.applyTreediff (some ours) opd.tree theirs = .ok false)
    (huiw : s.trans.options.useIndexAndWorktree = true)
    (hrtc : env.readTreeCheckoutOk s.trans.currentTreeId ours = true)
    (hmerge : env.mergeResult opd.tree ours theirs = .ok false) :
    ((pushPatch env pn false isLast tempIdx s).1 =
      .error (.transactionHalt "Merge conflicts" true) ∧
    (pushPatch env pn false isLast tempIdx s).2.2.trans.options.conflictMode =
      .allow ∧
    (pushPatch env pn false isLast tempIdx s).2.2.trans.updatedHead =
      some s.repo.next ∧
    (pushPatch env pn false isLast tempIdx s).2.2.repo.find s.repo.next =
      some ⟨ours, [npOid], pcd.author, defaultCommitter, pcd.message⟩ ∧
    (pushPatch env pn false isLast tempIdx s).2.2.trans.getPatchCommit pn =
      some s.repo.next ∧
    (pushPatch env pn false isLast tempIdx s).2.2.trans.applied =
      s.trans.applied ++ [pn] ∧
    (pn ∈ s.trans.unapplied →
      (pushPatch env pn false isLast tempIdx s).2.2.trans.unapplied =
        s.trans.unapplied.erase pn ∧
      (pushPatch env pn false isLast tempIdx s).2.2.trans.hidden =
        s.trans.hidden) ∧
    (pn ∉ s.trans.unapplied →
      (pushPatch env pn false isLast tempIdx s).2.2.trans.unapplied =
        s.trans.unapplied ∧
      (pushPatch env pn false isLast tempIdx s).2.2.trans.hidden =
        s.trans.hidden.erase pn)) ∧
    (∀ (env2 : Env) (s2 : St) (pn2 : PatchName) (am2 isLast2 : Bool)
      (ti2 : Option Oid),
      ((pushPatch env2 pn2 am2 isLast2 ti2 s2).1 = .ok () ∧
        (pushPatch env2 pn2 am2 isLast2 ti2 s2).2.2.trans.applied =
          s2.trans.applied ++ [pn2]) ∨
      ((pushPatch env2 pn2 am2 isLast2 ti2 s2).1 =
          .error (.transactionHalt "Merge conflicts" true) ∧
        (pushPatch env2 pn2 am2 isLast2 ti2 s2).2.2.trans.applied =
          s2.trans.applied ++ [pn2]) ∨
      (∃ e, (pushPatch env2 pn2 am2 isLast2 ti2 s2).1 = .error e ∧
        (pushPatch env2 pn2 am2 isLast2 ti2 s2).2.2.trans.applied =
          s2.trans.applied)) := by
  constructor
  · have hoid : npOid ≠ opOid := by
      intro h
      rw [h, hop] at hnp
      cases hnp
      exact hne1 rfl
    have htOp : s.repo.treeOf opOid = some opd.tree := by
      simp [Repo.treeOf, hop]
    have htNp : s.repo.treeOf npOid = some npd.tree := by
      simp [Repo.treeOf, hnp]
    have hcomp : pushPatchCompute env pn false pcd.tree opd.tree npd.tree
        tempIdx s = pushPatchMerge env pn opd.tree ours theirs tempIdx s := by
      rw [hours, htheirs]
      simp [pushPatchCompute, hne1, hne2, hne3]
    have mc := pushPatchMerge_conflict env pn opd.tree ours theirs tempIdx s
      happly huiw hrtc hmerge
    rcases hM : pushPatchMerge env pn opd.tree ours theirs tempIdx s
      with ⟨rM, tiM, sM⟩
    rw [hM] at mc
    simp only at mc
    obtain ⟨mc1, mc2, mc3, _⟩ := mc
    have eA : sM.trans.applied = s.trans.applied := by rw [mc2]
    have eU : sM.trans.unapplied = s.trans.unapplied := by rw [mc2]
    have eH : sM.trans.hidden = s.trans.hidden := by rw [mc2]
    have eRn : sM.repo.next = s.repo.next := by rw [mc3]
    have fc := pushPatchFinish_conflict pn isLast pc pcd opOid npOid npd.tree
      ours sM (Or.inr hoid)
    rcases hF : pushPatchFinish pn isLast pc pcd opOid npOid npd.tree ours
      .conflict sM with ⟨rF, sF⟩
    rw [hF] at fc
    simp only at fc
    have hPP : pushPatch env pn false isLast tempIdx s = (rF, tiM, sF) := by
      unfold pushPatch
      simp only [hpc, hfind, hpar, htOp, htop, htNp, hcomp, hM, mc1, hF]
    rw [hPP]
    simp only
    obtain ⟨f1, f2, f3, f4, f5, f6, f7, f8⟩ := fc
    refine ⟨f1, f2, ?_, ?_, ?_, ?_, ?_, ?_⟩
    · rw [f3, eRn]
    · rw [eRn] at f4
      exact f4
    · rw [f5, eRn]
    · rw [f6, eA]
    · intro hmemU
      have := f7 (by rw [eU]; exact hmemU)
      rw [eU, eH] at this
      exact this
    · intro hmemU
      have := f8 (by rw [eU]; exact hmemU)
      rw [eU, eH] at this
      exact this
  · intro env2 s2 pn2 am2 isLast2 ti2
    unfold pushPatch
    cases h1 : s2.trans.getPatchCommit pn2 with
    | none =>
      simp [h1]
    | some pc2 =>
      simp only [h1]
      cases h2 : s2.repo.find pc2 with
      | none =>
        simp [h2]
      | some pcd2 =>
        simp only [h2]
        cases h3 : pcd2.parents.head? with
        | none =>
          simp [h3]
        | some op2 =>
          simp only [h3]
          cases h4 : s2.repo.treeOf op2 with
          | none =>
            simp [h4]
          | some opt2 =>
            simp only [h4]
            cases h5 : s2.trans.topO with
            | none =>
              simp [h5]
            | some np2 =>
              simp only [h5]
              cases h6 : s2.repo.treeOf np2 with
              | none =>
                simp [h6]
              | some npt2 =>
                simp only [h6]
                rcases h7 : pushPatchCompute env2 pn2 am2 pcd2.tree opt2
                  npt2 ti2 s2 with ⟨rc, tic, sc⟩
                have hap : sc.trans.applied = s2.trans.applied := by
                  have h8 := pushPatchCompute_applied env2 pn2 am2 pcd2.tree
                    opt2 npt2 ti2 s2
                  rw [h7] at h8
                  exact h8
                cases rc with
                | error e =>
                  simp only [h7]
                  exact Or.inr (Or.inr ⟨e, rfl, hap⟩)
                | ok p =>
                  rcases p with ⟨nt2, st02⟩
                  simp only [h7]
                  have hcl := pushPatchFinish_classify pn2 isLast2 pc2 pcd2
                    op2 np2 npt2 nt2 st02 sc
                  rcases hF2 : pushPatchFinish pn2 isLast2 pc2 pcd2 op2 np2
                    npt2 nt2 st02 sc with ⟨rF2, sF2⟩
                  rw [hF2] at hcl
                  simp only at hcl
                  obtain ⟨hok, hl⟩ := hcl
                  rw [hap] at hl
                  simp only [hF2]
                  rcases hok with hok | hok
                  · exact Or.inl ⟨hok, hl⟩
                  · exact Or.inr (Or.inl ⟨hok, hl⟩)

/-- Environment in which tree-diff application refuses and the recursive
merge reports conflicts. -/

theorem claim_C2_push_conflict_witness :
    (pushPatch envC2 2 false true none stC2).1 =
      .error (.transactionHalt "Merge conflicts" true) ∧
    (pushPatch envC2 2 false true none stC2).2.2.trans.updatedHead =
      some 100 ∧
    (pushPatch envC2 2 false true none stC2).2.2.trans.applied = [1, 2] ∧
    (pushPatch envC2 2 false true none stC2).2.2.trans.unapplied = [] := by
  have h := claim_C2_push_conflict envC2 stC2 2 true none 12
    ⟨22, [10], 7, 7, 7⟩ 10 ⟨20, [], 7, 7, 7⟩ 11 ⟨21, [10], 7, 7, 7⟩ 21 22
    rfl rfl rfl rfl rfl rfl (by decide) (by decide) (by decide)
    rfl rfl rfl rfl rfl rfl
  obtain ⟨⟨c1, _, c3, _, _, c6, c7, _⟩, _⟩ := h
  refine ⟨c1, ?_, ?_, ?_⟩
  · rw [c3]
    rfl
  · rw [c6]
    rfl
  · rw [(c7 (by decide)).1]
    rfl

/-- Witness for C9: renaming patch 1 to the name 2, which collides with
live patch 2, returns the collision error and leaves the world exactly as
it was. -/

theorem claim_C9_rename_error_unchanged_witness :
    (renamePatch 1 2 st5).1 =
      .error (.other "Patch `2` already exists") ∧
    (renamePatch 1 2 st5).2 = st5 := by
  refine ⟨rfl, ?_⟩
  exact claim_C9_rename_error_unchanged st5 1 2 "Patch `2` already exists" rfl

theorem lookupA_removeB_self {β : Type} (k : Nat) (m : List (Nat × β)) :
    lookupA k (removeB k m) = none := by
  induction m with
  | nil => rfl
  | cons p rest ih =>
    rcases p with ⟨k1, v1⟩
    by_cases h : k1 = k
    · simpa [removeB, List.filter_cons, h] using ih
    · simpa [removeB, List.filter_cons, h, lookupA, Ne.symm h] using ih

theorem lookupA_removeB_ne {β : Type} (k k' : Nat) (m : List (Nat × β))
    (h : k' ≠ k) :
    lookupA k' (removeB k m) = lookupA k' m := by
  induction m with
  | nil => rfl
  | cons p rest ih =>
    rcases p with ⟨k1, v1⟩
    by_cases h1 : k1 = k
    · subst h1
      simpa [removeB, List.filter_cons, lookupA, h] using ih
    · by_cases h2 : k' = k1
      · simp [removeB, List.filter_cons, h1, lookupA, h2]
      · simpa [removeB, List.filter_cons, h1, lookupA, h2] using ih

theorem refUpdateLoop_state (ups : List (PatchName × Option PatchState))
    (stack : Stack) (sx : St) :
    (refUpdateLoop ups stack sx).2.trans = sx.trans ∧
    (refUpdateLoop ups stack sx).2.repo = sx.repo ∧
    (refUpdateLoop ups stack sx).2.stateCommits = sx.stateCommits ∧
    (refUpdateLoop ups stack sx).2.refs.branchTarget =
      sx.refs.branchTarget ∧
    (refUpdateLoop ups stack sx).2.refs.stackStateRef =
      sx.refs.stackStateRef ∧
    ∃ es, (refUpdateLoop ups stack sx).2.trace = sx.trace ++ es := by
  induction ups generalizing stack sx with
  | nil => simp [refUpdateLoop]
  | cons p rest ih =>
    rcases p with ⟨pn, mp⟩
    cases mp with
    | none =>
      simp only [refUpdateLoop, emit]
      refine ⟨(ih _ _).1, (ih _ _).2.1, (ih _ _).2.2.1, (ih _ _).2.2.2.1,
        (ih _ _).2.2.2.2.1, ?_⟩
      obtain ⟨es, hes⟩ := (ih
        { stack with state :=
          { stack.state with patches := removeB pn stack.state.patches } }
        { sx with
          refs := { sx.refs with patchRefs := removeB pn sx.refs.patchRefs },
          trace := sx.trace ++ [Event.patchRefRemove pn] }).2.2.2.2.2
      refine ⟨Event.patchRefRemove pn :: es, ?_⟩
      rw [hes]
      simp
    | some ps =>
      simp only [refUpdateLoop, emit]
      refine ⟨(ih _ _).1, (ih _ _).2.1, (ih _ _).2.2.1, (ih _ _).2.2.2.1,
        (ih _ _).2.2.2.2.1, ?_⟩
      obtain ⟨es, hes⟩ := (ih
        { stack with state :=
          { stack.state with
            patches := insertB pn ps stack.state.patches } }
        { sx with
          refs := { sx.refs with
            patchRefs := insertB pn ps.commit sx.refs.patchRefs },
          trace := sx.trace ++ [Event.patchRefSet pn ps.commit] }).2.2.2.2.2
      refine ⟨Event.patchRefSet pn ps.commit :: es, ?_⟩
      rw [hes]
      simp

theorem refUpdateLoop_patchRefs_notmem
    (ups : List (PatchName × Option PatchState)) (stack : Stack) (sx : St)
    (pn : PatchName) (h : pn ∉ ups.map Prod.fst) :
    lookupA pn (refUpdateLoop ups stack sx).2.refs.patchRefs =
      lookupA pn sx.refs.patchRefs := by
  induction ups generalizing stack sx with
  | nil => rfl
  | cons p rest ih =>
    rcases p with ⟨pn2, mp⟩
    have hne : pn ≠ pn2 := by
      intro hx
      exact h (by simp [hx])
    have hnm : pn ∉ rest.map Prod.fst := by
      intro hx
      exact h (by simp [hx])
    cases mp with
    | none =>
      simp only [refUpdateLoop]
      rw [ih _ _ hnm]
      simp [emit, lookupA_removeB_ne _ _ _ hne]
    | some ps =>
      simp only [refUpdateLoop]
      rw [ih _ _ hnm]
      simp [emit, lookupA_insertB_ne _ _ _ _ hne]

theorem refUpdateLoop_patchRefs
    (ups : List (PatchName × Option PatchState)) (stack : Stack) (sx : St)
    (hnd : (ups.map Prod.fst).Nodup) :
    (∀ pn ps, lookupA pn ups = some (some ps) →
      lookupA pn (refUpdateLoop ups stack sx).2.refs.patchRefs =
        some ps.commit) ∧
    (∀ pn, lookupA pn ups = some none →
      lookupA pn (refUpdateLoop ups stack sx).2.refs.patchRefs = none) := by
  induction ups generalizing stack sx with
  | nil => simp [lookupA]
  | cons p rest ih =>
    rcases p with ⟨pn2, mp⟩
    have hnd2 : (rest.map Prod.fst).Nodup := (List.nodup_cons.mp hnd).2
    have hpn2 : pn2 ∉ rest.map Prod.fst := (List.nodup_cons.mp hnd).1
    constructor
    · intro pn ps hl
      by_cases he : pn = pn2
      · subst he
        simp only [lookupA] at hl
        simp at hl
        subst hl
        simp only [refUpdateLoop]
        rw [refUpdateLoop_patchRefs_notmem _ _ _ _ hpn2]
        simp [emit, lookupA_insertB]
      · simp only [lookupA, if_neg he] at hl
        cases mp with
        | none =>
          simp only [refUpdateLoop]
          exact (ih _ _ hnd2).1 pn ps hl
        | some ps2 =>
          simp only [refUpdateLoop]
          exact (ih _ _ hnd2).1 pn ps hl
    · intro pn hl
      by_cases he : pn = pn2
      · subst he
        simp only [lookupA] at hl
        simp at hl
        subst hl
        simp only [refUpdateLoop]
        rw [refUpdateLoop_patchRefs_notmem _ _ _ _ hpn2]
        simp [emit, lookupA_removeB_self]
      · simp only [lookupA, if_neg he] at hl
        cases mp with
        | none =>
          simp only [refUpdateLoop]
          exact (ih _ _ hnd2).2 pn hl
        | some ps2 =>
          simp only [refUpdateLoop]
          exact (ih _ _ hnd2).2 pn hl

theorem checkout_immutable (env : Env) (stackArg : Stack)
    (options : TransactionOptions) (ct : Oid) (tt : Option PatchName)
    (co : Oid) (s : St) :
    (checkout env stackArg options ct tt co s).2.trans = s.trans ∧
    (checkout env stackArg options ct tt co s).2.repo = s.repo ∧
    (checkout env stackArg options ct tt co s).2.refs = s.refs ∧
    (checkout env stackArg options ct tt co s).2.stateCommits =
      s.stateCommits ∧
    ∃ es, (checkout env stackArg options ct tt co s).2.trace =
      s.trace ++ es := by
  unfold checkout
  repeat' split
  all_goals simp [emit]

theorem printPushed_frame (pn : PatchName) (st0 : PushStatus) (il : Bool)
    (s : St) :
    (printPushed pn st0 il s).repo = s.repo ∧
    (printPushed pn st0 il s).refs = s.refs ∧
    (printPushed pn st0 il s).stateCommits = s.stateCommits := by
  unfold printPushed emit
  split <;> simp

theorem executeFinish_spec (t : StackTransaction) (th : Oid)
    (stack2 : Stack) (s : St)
    (hnd : (t.updatedPatches.map Prod.fst).Nodup) :
    (∀ e, t.error = some e → (executeFinish t th stack2 s).1 = .error e) ∧
    (executeFinish t th stack2 s).2.refs.branchTarget =
      s.refs.branchTarget ∧
    (∀ pn ps, lookupA pn t.updatedPatches = some (some ps) →
      lookupA pn (executeFinish t th stack2 s).2.refs.patchRefs =
        some ps.commit) ∧
    (∀ pn, lookupA pn t.updatedPatches = some none →
      lookupA pn (executeFinish t th stack2 s).2.refs.patchRefs = none) ∧
    (executeFinish t th stack2 s).2.refs.stackStateRef = s.repo.next ∧
    ∃ ns, lookupA s.repo.next (executeFinish t th stack2 s).2.stateCommits =
        some ns ∧
      ns.applied = t.applied ∧ ns.unapplied = t.unapplied ∧
      ns.hidden = t.hidden ∧ ns.head = th ∧
      ns.prev = some s.refs.stackStateRef := by
  have hst := refUpdateLoop_state t.updatedPatches stack2 s
  have hpr := refUpdateLoop_patchRefs t.updatedPatches stack2 s hnd
  unfold executeFinish
  simp only [hst.1]
  by_cases hpt : s.trans.printedTop
  · simp only [hpt, Bool.not_true, Bool.false_eq_true, if_false]
    refine ⟨?_, ?_, ?_, ?_, ?_,
      ⟨{ prev := some s.refs.stackStateRef, head := th,
         applied := t.applied, unapplied := t.unapplied, hidden := t.hidden,
         patches := (refUpdateLoop t.updatedPatches stack2 s).1.state.patches },
       ?_, rfl, rfl, rfl, rfl, rfl⟩⟩
    · intro e he
      simp [he]
    · split <;> simp [emit, hst.2.2.2.1]
    · intro pn ps hl
      have := hpr.1 pn ps hl
      split <;> simp [emit, this]
    · intro pn hl
      have := hpr.2 pn hl
      split <;> simp [emit, this]
    · split <;> simp [emit, hst.2.1]
    · split <;> simp [emit, hst.2.1, hst.2.2.2.2.1, lookupA_insertB]
  · simp only [hpt, Bool.not_false, if_true, Bool.false_eq_true]
    cases hgl : t.applied.getLast? with
    | none =>
      refine ⟨?_, ?_, ?_, ?_, ?_,
        ⟨{ prev := some s.refs.stackStateRef, head := th,
           applied := t.applied, unapplied := t.unapplied,
           hidden := t.hidden,
           patches :=
             (refUpdateLoop t.updatedPatches stack2 s).1.state.patches },
         ?_, rfl, rfl, rfl, rfl, rfl⟩⟩
      · intro e he
        simp [he]
      · split <;> simp [emit, hst.2.2.2.1]
      · intro pn ps hl
        have := hpr.1 pn ps hl
        split <;> simp [emit, this]
      · intro pn hl
        have := hpr.2 pn hl
        split <;> simp [emit, this]
      · split <;> simp [emit, hst.2.1]
      · split <;> simp [emit, hst.2.1, hst.2.2.2.2.1, lookupA_insertB]
    | some topPn =>
      have hfr := printPushed_frame topPn .unmodified true
        (refUpdateLoop t.updatedPatches stack2 s).2
      refine ⟨?_, ?_, ?_, ?_, ?_,
        ⟨{ prev := some s.refs.stackStateRef, head := th,
           applied := t.applied, unapplied := t.unapplied,
           hidden := t.hidden,
           patches :=
             (refUpdateLoop t.updatedPatches stack2 s).1.state.patches },
         ?_, rfl, rfl, rfl, rfl, rfl⟩⟩
      · intro e he
        simp [he]
      · split <;> simp [emit, hfr.2.1, hst.2.2.2.1]
      · intro pn ps hl
        have := hpr.1 pn ps hl
        split <;> simp [emit, hfr.2.1, this]
      · intro pn hl
        have := hpr.2 pn hl
        split <;> simp [emit, hfr.2.1, this]
      · split <;> simp [emit, hfr.1, hst.2.1]
      · split <;>
          simp [emit, hfr.1, hfr.2.1, hst.2.1, hst.2.2.2.2.1, lookupA_insertB]

set_option maxRecDepth 8192 in
set_option maxHeartbeats 1000000 in
/-- C1: `execute` error gating. With a consistent audit and a resolvable
head: (a) a captured body error that is not a `TransactionHalt` is returned
immediately with the world completely untouched (no checkout, no ref
writes, not even a trace event); (b) a captured `TransactionHalt` (either
conflicts flag), when the head is being set with index-and-worktree use,
the stack's head matches its top and the checkout succeeds, is re-raised
only after the branch ref is moved to the transaction head, every updated
patch ref is written (or deleted for a tombstone), and a new stack-state
commit recording the transaction's applied/unapplied/hidden lists and head
is allocated and installed as the stack ref. -/
theorem claim_C1_execute_gating (env : Env) (msg : String) (s : St)
    (th : Oid) (ha : auditOk s.trans = true)
    (hh : s.trans.headO = some th) :
    (∀ err, s.trans.error = some err →
      (∀ m c, err ≠ TErr.transactionHalt m c) →
      execute env msg s = (.error err, s)) ∧
    (∀ m c, s.trans.error = some (.transactionHalt m c) →
      s.trans.options.setHead = true →
      s.trans.options.useIndexAndWorktree = true →
      s.trans.stack.isHeadTop = true →
      (s.trans.updatedPatches.map Prod.fst).Nodup →
      (checkout env s.trans.stack s.trans.options s.trans.currentTreeId
        s.trans.applied.getLast? th s).1 = Except.ok () →
      (execute env msg s).1 = .error (.transactionHalt m c) ∧
      (execute env msg s).2.refs.branchTarget = th ∧
      (∀ pn ps, lookupA pn s.trans.updatedPatches = some (some ps) →
        lookupA pn (execute env msg s).2.refs.patchRefs = some ps.commit) ∧
      (∀ pn, lookupA pn s.trans.updatedPatches = some none →
        lookupA pn (execute env msg s).2.refs.patchRefs = none) ∧
      (execute env msg s).2.refs.stackStateRef = s.repo.next ∧
      ∃ ns, lookupA s.repo.next (execute env msg s).2.stateCommits =
          some ns ∧
        ns.applied = s.trans.applied ∧ ns.unapplied = s.trans.unapplied ∧
        ns.hidden = s.trans.hidden ∧ ns.head = th ∧
        ns.prev = some s.refs.stackStateRef) := by
  constructor
  · intro err herr hne
    cases err with
    | transactionHalt m c => exact absurd rfl (hne m c)
    | other m => simp [execute, ha, hh, herr]
    | checkoutConflicts m => simp [execute, ha, hh, herr]
    | panic m => simp [execute, ha, hh, herr]
  · intro m c herr hset huse hht hnd hok
    obtain ⟨sc, hsc⟩ : ∃ x, (checkout env s.trans.stack s.trans.options
        s.trans.currentTreeId s.trans.applied.getLast? th s).2 = x :=
      ⟨_, rfl⟩
    have hcim := checkout_immutable env s.trans.stack s.trans.options
      s.trans.currentTreeId s.trans.applied.getLast? th s
    rw [hsc] at hcim
    have hck : checkout env s.trans.stack s.trans.options
        s.trans.currentTreeId s.trans.applied.getLast? th s =
        (Except.ok (), sc) := by
      rw [← hok, ← hsc]
    have hred : execute env msg s =
        executeFinish s.trans th
          { s.trans.stack with branchHead := th }
          { sc with
            refs := { sc.refs with branchTarget := th },
            trace := sc.trace ++ [Event.branchSetTarget th] } := by
      simp only [execute, ha, hh, herr, hset, huse, hht, hck, bindR, emit,
        Bool.not_true, Bool.false_eq_true, if_false, if_true]
    have hfin := executeFinish_spec s.trans th
      { s.trans.stack with branchHead := th }
      { sc with
        refs := { sc.refs with branchTarget := th },
        trace := sc.trace ++ [Event.branchSetTarget th] } hnd
    rw [hred]
    refine ⟨hfin.1 _ herr, hfin.2.1, hfin.2.2.1, hfin.2.2.2.1, ?_, ?_⟩
    · rw [hfin.2.2.2.2.1]
      simp [hcim.2.1]
    · obtain ⟨ns, h1, h2, h3, h4, h5, h6⟩ := hfin.2.2.2.2.2
      refine ⟨ns, ?_, h2, h3, h4, h5, ?_⟩
      · rw [show ({ sc with
            refs := { sc.refs with branchTarget := th },
            trace := sc.trace ++ [Event.branchSetTarget th] } : St).repo.next
            = s.repo.next from by simp [hcim.2.1]] at h1
        exact h1
      · rw [h6]
        simp [hcim.2.2.1]

/-- The C5 world with a captured non-halt body error. -/

theorem claim_C1_execute_gating_witness :
    execute envD "m" stC1a = (.error (.other "boom"), stC1a) ∧
    (execute envD "m" stC1b).1 = .error (.transactionHalt "halted" true) ∧
    (execute envD "m" stC1b).2.refs.branchTarget = 13 ∧
    lookupA 3 (execute envD "m" stC1b).2.refs.patchRefs = some 13 ∧
    lookupA 5 (execute envD "m" stC1b).2.refs.patchRefs = none ∧
    (execute envD "m" stC1b).2.refs.stackStateRef = 100 := by
  refine ⟨?_, ?_, ?_, ?_, ?_, ?_⟩
  · exact (claim_C1_execute_gating envD "m" stC1a 13 (by decide)
      (by rfl)).1 (.other "boom") rfl (fun m c h => by cases h)
  · exact ((claim_C1_execute_gating envD "m" stC1b 13 (by decide)
      (by rfl)).2 "halted" true rfl rfl rfl (by rfl) (by decide)
      (by rfl)).1
  · exact ((claim_C1_execute_gating envD "m" stC1b 13 (by decide)
      (by rfl)).2 "halted" true rfl rfl rfl (by rfl) (by decide)
      (by rfl)).2.1
  · exact ((claim_C1_execute_gating envD "m" stC1b 13 (by decide)
      (by rfl)).2 "halted" true rfl rfl rfl (by rfl) (by decide)
      (by rfl)).2.2.1 3 ⟨13⟩ rfl
  · exact ((claim_C1_execute_gating envD "m" stC1b 13 (by decide)
      (by rfl)).2 "halted" true rfl rfl rfl (by rfl) (by decide)
      (by rfl)).2.2.2.1 5 rfl
  · exact ((claim_C1_execute_gating envD "m" stC1b 13 (by decide)
      (by rfl)).2 "halted" true rfl rfl rfl (by rfl) (by decide)
      (by rfl)).2.2.2.2.1

/-- The three patch lists laid end to end: the spec's stack invariant is
that this list is duplicate-free (in particular the lists are pairwise
disjoint). -/

theorem claim_C4_disjoint_counterexample :
    listsDisjoint stC4.trans ∧
    (newApplied 4 16 stC4).1 = .ok () ∧
    ¬ listsDisjoint (newApplied 4 16 stC4).2.trans := by
  refine ⟨⟨?_, ?_, ?_⟩, rfl, fun h => ?_⟩
  · intro a ha hb
    simp [stC4, st5] at ha hb
    rcases ha with rfl | rfl | rfl <;> simp at hb
  · intro a ha hb
    simp [stC4, st5] at ha hb
    rcases ha with rfl | rfl | rfl <;> simp at hb
  · intro a ha hb
    simp [stC4, st5] at ha hb
    subst ha
    simp at hb
  · exact h.1 (show (4 : Nat) ∈ (newApplied 4 16 stC4).2.trans.applied from
      by decide) (show (4 : Nat) ∈ (newApplied 4 16 stC4).2.trans.unapplied
      from by decide)

theorem setUpdated_lists (pn : PatchName) (mp : Option PatchState) (s : St) :
    (setUpdated pn mp s).trans.applied = s.trans.applied ∧
    (setUpdated pn mp s).trans.unapplied = s.trans.unapplied ∧
    (setUpdated pn mp s).trans.hidden = s.trans.hidden :=
  ⟨rfl, rfl, rfl⟩

theorem printPopped_lists (pns : List PatchName) (w : St) :
    (printPopped pns w).trans = w.trans := by
  unfold printPopped emit
  split <;> simp

theorem printDeleted_lists (pns : List PatchName) (w : St) :
    (printDeleted pns w).trans = w.trans := by
  unfold printDeleted emit
  split <;> simp

theorem printUnhidden_lists (pns : List PatchName) (w : St) :
    (printUnhidden pns w).trans = w.trans := by
  unfold printUnhidden emit
  split <;> simp

theorem printCommitted_lists (pns : List PatchName) (w : St) :
    (printCommitted pns w).trans = w.trans := by
  unfold printCommitted emit
  split <;> simp

theorem printUpdated_lists (pn : PatchName) (w : St) :
    (printUpdated pn w).trans = w.trans := rfl

theorem popPatches_lists (p : PatchName → Bool) (s : St) :
    (popPatches p s).1 = .ok ((match s.trans.applied.findIdx? p with
      | some i => s.trans.applied.drop i
      | none => []).filter (fun pn => !p pn)) ∧
    (popPatches p s).2.trans.applied =
      (match s.trans.applied.findIdx? p with
       | some i => s.trans.applied.take i
       | none => s.trans.applied) ∧
    (popPatches p s).2.trans.unapplied =
      (match s.trans.applied.findIdx? p with
       | some i =>
         (s.trans.applied.drop i).filter (fun pn => !p pn) ++
           (s.trans.applied.drop i).filter p ++ s.trans.unapplied
       | none => s.trans.unapplied) ∧
    (popPatches p s).2.trans.hidden = s.trans.hidden := by
  unfold popPatches
  rw [show ∀ w : St, (printPopped (match s.trans.applied.findIdx? p with
      | some i => s.trans.applied.drop i
      | none => []) w).trans = w.trans from fun w => printPopped_lists _ w]
  cases hidx : s.trans.applied.findIdx? p <;> simp [hidx]

theorem popPatches_perm (p : PatchName → Bool) (s : St) :
    List.Perm (popPatches p s).2.trans.allPatches s.trans.allPatches := by
  have h := popPatches_lists p s
  unfold StackTransaction.allPatches
  rw [h.2.1, h.2.2.1, h.2.2.2]
  cases hidx : s.trans.applied.findIdx? p
  · simp [hidx]
  · rename_i i
    simp only [hidx]
    simp only [List.append_assoc]
    conv_rhs => rw [← List.take_append_drop i s.trans.applied]
    simp only [List.append_assoc]
    refine List.Perm.append_left _ ?_
    rw [← List.append_assoc]
    refine List.Perm.append_right _ ?_
    exact List.Perm.trans List.perm_append_comm
      (List.filter_append_perm p (s.trans.applied.drop i))

theorem deleteLoopPopped_lists (d : PatchName → Bool)
    (pops : List PatchName) : ∀ (group : List PatchName) (s : St),
    (deleteLoopPopped d pops group s).2.trans.applied = s.trans.applied ∧
    (deleteLoopPopped d pops group s).2.trans.unapplied =
      s.trans.unapplied ∧
    (deleteLoopPopped d pops group s).2.trans.hidden = s.trans.hidden := by
  induction pops with
  | nil => intro group s; exact ⟨rfl, rfl, rfl⟩
  | cons pn rest ih =>
    intro group s
    unfold deleteLoopPopped
    split
    · exact ih _ _
    · split
      · exact ih _ _
      · obtain ⟨h1, h2, h3⟩ := ih [] (printDeleted group s)
        rw [h1, h2, h3, printDeleted_lists]
        exact ⟨rfl, rfl, rfl⟩

theorem deleteLoopUnapplied_lists (d : PatchName → Bool)
    (olds : List PatchName) : ∀ (group : List PatchName) (s : St),
    (deleteLoopUnapplied d olds group s).2.trans.applied =
      s.trans.applied ∧
    (deleteLoopUnapplied d olds group s).2.trans.hidden = s.trans.hidden ∧
    (deleteLoopUnapplied d olds group s).2.trans.unapplied =
      s.trans.unapplied ++ olds.filter (fun pn => !d pn) := by
  induction olds with
  | nil => intro group s; simp [deleteLoopUnapplied]
  | cons pn rest ih =>
    intro group s
    unfold deleteLoopUnapplied
    split
    next hd =>
      obtain ⟨h1, h2, h3⟩ := ih (group ++ [pn]) (setUpdated pn none s)
      rw [h1, h2, h3]
      refine ⟨rfl, rfl, ?_⟩
      simp [setUpdated, List.filter_cons, hd]
    next hd =>
      obtain ⟨h1, h2, h3⟩ := ih []
        { printDeleted group s with trans :=
          { (printDeleted group s).trans with unapplied :=
            (printDeleted group s).trans.unapplied ++ [pn] } }
      rw [h1, h2, h3]
      simp [printDeleted_lists, List.filter_cons,
        eq_false_of_ne_true hd, List.append_assoc]

theorem deleteLoopHidden_lists (d : PatchName → Bool)
    (hid : List PatchName) : ∀ (group : List PatchName) (s : St),
    (deleteLoopHidden d hid group s).1 =
      hid.filter (fun pn => !d pn) ∧
    (deleteLoopHidden d hid group s).2.2.trans.applied =
      s.trans.applied ∧
    (deleteLoopHidden d hid group s).2.2.trans.unapplied =
      s.trans.unapplied ∧
    (deleteLoopHidden d hid group s).2.2.trans.hidden = s.trans.hidden := by
  induction hid with
  | nil => intro group s; simp [deleteLoopHidden]
  | cons pn rest ih =>
    intro group s
    unfold deleteLoopHidden
    split
    next hd =>
      obtain ⟨h0, h1, h2, h3⟩ := ih (group ++ [pn]) (setUpdated pn none s)
      rw [h0, h1, h2, h3]
      refine ⟨by simp [List.filter_cons, hd], rfl, rfl, rfl⟩
    next hd =>
      dsimp only
      obtain ⟨h0, h1, h2, h3⟩ := ih [] (printDeleted group s)
      rw [printDeleted_lists] at h1 h2 h3
      refine ⟨?_, h1, h2, h3⟩
      rw [h0]
      simp [List.filter_cons, eq_false_of_ne_true hd]

theorem deletePatches_lists (d : PatchName → Bool) (s : St) :
    (deletePatches d s).1 = .ok ((match s.trans.applied.findIdx? d with
      | some i => s.trans.applied.drop i
      | none => []).filter (fun pn => !d pn)) ∧
    (deletePatches d s).2.trans.applied =
      (match s.trans.applied.findIdx? d with
       | some i => s.trans.applied.take i
       | none => s.trans.applied) ∧
    (deletePatches d s).2.trans.unapplied =
      (match s.trans.applied.findIdx? d with
       | some i => s.trans.applied.drop i
       | none => []).filter (fun pn => !d pn) ++
        s.trans.unapplied.filter (fun pn => !d pn) ∧
    (deletePatches d s).2.trans.hidden =
      s.trans.hidden.filter (fun pn => !d pn) := by
  unfold deletePatches
  dsimp only
  refine ⟨rfl, ?_, ?_, ?_⟩
  · rw [printDeleted_lists]
    dsimp only
    rw [(deleteLoopHidden_lists d _ _ _).2.1,
      (deleteLoopUnapplied_lists d _ _ _).1,
      (deleteLoopPopped_lists d _ _ _).1, printPopped_lists]
  · rw [printDeleted_lists]
    dsimp only
    rw [(deleteLoopHidden_lists d _ _ _).2.2.1,
      (deleteLoopUnapplied_lists d _ _ _).2.2,
      (deleteLoopPopped_lists d _ _ _).2.1, printPopped_lists]
  · rw [printDeleted_lists]
    dsimp only
    rw [(deleteLoopHidden_lists d _ _ _).1,
      (deleteLoopUnapplied_lists d _ _ _).2.1,
      (deleteLoopPopped_lists d _ _ _).2.2, printPopped_lists]

theorem deletePatches_chain (d : PatchName → Bool) (s : St)
    (hnd : chainNodup s.trans) :
    chainNodup (deletePatches d s).2.trans ∧
    ∀ x ∈ (deletePatches d s).2.trans.allPatches,
      x ∈ s.trans.allPatches := by
  obtain ⟨-, h1, h2, h3⟩ := deletePatches_lists d s
  have hsub : (deletePatches d s).2.trans.allPatches.Sublist
      s.trans.allPatches := by
    unfold StackTransaction.allPatches
    rw [h1, h2, h3]
    cases hidx : s.trans.applied.findIdx? d
    · simp only [hidx, List.filter_nil, List.nil_append, List.append_assoc]
      refine List.Sublist.append (List.Sublist.refl _) ?_
      exact List.Sublist.append (List.filter_sublist _)
        (List.filter_sublist _)
    · rename_i i
      simp only [hidx, List.append_assoc]
      conv_rhs => rw [← List.take_append_drop i s.trans.applied]
      simp only [List.append_assoc]
      refine List.Sublist.append (List.Sublist.refl _) ?_
      refine List.Sublist.append (List.filter_sublist _) ?_
      exact List.Sublist.append (List.filter_sublist _)
        (List.filter_sublist _)
  exact ⟨hsub.nodup hnd, fun x hx => hsub.subset hx⟩

theorem popPatches_chain (p : PatchName → Bool) (s : St)
    (hnd : chainNodup s.trans) :
    chainNodup (popPatches p s).2.trans ∧
    ∀ x, x ∈ (popPatches p s).2.trans.allPatches ↔
      x ∈ s.trans.allPatches := by
  have hperm := popPatches_perm p s
  exact ⟨(hperm.nodup_iff).mpr hnd, fun x => hperm.mem_iff⟩

theorem uncommitLoop_acc (patches : List (PatchName × Oid)) :
    ∀ (acc : List PatchName) (s : St),
    (uncommitLoop patches acc s).2.trans.applied = s.trans.applied ∧
    (uncommitLoop patches acc s).2.trans.unapplied = s.trans.unapplied ∧
    (uncommitLoop patches acc s).2.trans.hidden = s.trans.hidden ∧
    (∀ r, (uncommitLoop patches acc s).1 = .ok r →
      r = acc ++ patches.map Prod.fst) := by
  induction patches with
  | nil =>
    intro acc s
    refine ⟨rfl, rfl, rfl, fun r hr => ?_⟩
    simp [uncommitLoop] at hr
    simp [hr]
  | cons p rest ih =>
    intro acc s
    rcases p with ⟨pn, cid⟩
    unfold uncommitLoop
    split
    · exact ⟨rfl, rfl, rfl, fun r hr => by simp at hr⟩
    · obtain ⟨h1, h2, h3, h4⟩ := ih (acc ++ [pn]) (setUpdated pn (some ⟨cid⟩) s)
      refine ⟨h1, h2, h3, fun r hr => ?_⟩
      have := h4 r hr
      simp [this, List.append_assoc]

theorem uncommitPatches_lists (patches : List (PatchName × Oid)) (s : St)
    (hok : (uncommitPatches patches s).1 = .ok ()) :
    (uncommitPatches patches s).2.trans.applied =
      patches.map Prod.fst ++ s.trans.applied ∧
    (uncommitPatches patches s).2.trans.unapplied = s.trans.unapplied ∧
    (uncommitPatches patches s).2.trans.hidden = s.trans.hidden := by
  unfold uncommitPatches at hok ⊢
  obtain ⟨a, hx, heq⟩ := bindR_ok_elim hok
  rw [heq]
  obtain ⟨h1, h2, h3, h4⟩ := uncommitLoop_acc patches [] s
  have hacc : a = patches.map Prod.fst := by
    have hv : (uncommitLoop patches [] s).1 = .ok a := by
      rw [show (uncommitLoop patches [] s).1 = ((uncommitLoop patches [] s).1,
        (uncommitLoop patches [] s).2).1 from rfl]
      rw [show ((uncommitLoop patches [] s).1, (uncommitLoop patches [] s).2) =
        uncommitLoop patches [] s from rfl, hx]
    simpa using h4 a hv
  rw [hacc]
  exact ⟨by rw [h1], by rw [h2], by rw [h3]⟩

theorem insertIS_nodup (x : Nat) (s : List Nat) (h : s.Nodup) :
    (insertIS x s).Nodup := by
  unfold insertIS
  split
  · exact h
  · next hx =>
    simp [List.nodup_append, h, hx]

theorem fromListIS_nodup (l : List Nat) : (fromListIS l).Nodup := by
  unfold fromListIS
  suffices hgen : ∀ (acc : List Nat), acc.Nodup →
      (l.foldl (fun s x => insertIS x s) acc).Nodup from
    hgen [] List.nodup_nil
  induction l with
  | nil => intro acc h; exact h
  | cons a t ih =>
    intro acc h
    exact ih _ (insertIS_nodup a acc h)

theorem repairConsume_subset : ∀ (pns old : List PatchName) (rem : List PatchName),
    repairConsume pns old = some rem → ∀ x ∈ pns, x ∈ old := by
  intro pns
  induction pns with
  | nil => intro old rem _ x hx; cases hx
  | cons pn rest ih =>
    intro old rem hc x hx
    unfold repairConsume at hc
    split at hc
    next hmem =>
      rcases List.mem_cons.mp hx with rfl | hx2
      · exact hmem
      · exact List.mem_of_mem_erase (ih (old.erase pn) rem hc x hx2)
    next => cases hc

theorem repairConsume_nodup : ∀ (pns old : List PatchName)
    (rem : List PatchName), old.Nodup →
    repairConsume pns old = some rem → pns.Nodup := by
  intro pns
  induction pns with
  | nil => intro old rem _ _; exact List.nodup_nil
  | cons pn rest ih =>
    intro old rem hold hc
    unfold repairConsume at hc
    split at hc
    next hmem =>
      refine List.nodup_cons.mpr ⟨?_, ih (old.erase pn) rem (hold.erase pn) hc⟩
      intro hmem2
      have hx := repairConsume_subset rest (old.erase pn) rem hc pn hmem2
      exact ((hold.mem_erase_iff).mp hx).1 rfl
    next => cases hc

theorem mem_replaceFirst (o n x : PatchName) :
    ∀ (l : List PatchName), x ∈ replaceFirst o n l → x ∈ l ∨ x = n := by
  intro l
  induction l with
  | nil => intro h; cases h
  | cons pn rest ih =>
    unfold replaceFirst
    split
    · intro h
      rcases List.mem_cons.mp h with rfl | h2
      · exact Or.inr rfl
      · exact Or.inl (List.mem_cons_of_mem _ h2)
    · intro h
      rcases List.mem_cons.mp h with rfl | h2
      · exact Or.inl (List.mem_cons_self _ _)
      · rcases ih h2 with h3 | h3
        · exact Or.inl (List.mem_cons_of_mem _ h3)
        · exact Or.inr h3

theorem nodup_replaceFirst (o n : PatchName) :
    ∀ (l : List PatchName), l.Nodup → n ∉ l →
    (replaceFirst o n l).Nodup := by
  intro l
  induction l with
  | nil => intro _ _; exact List.nodup_nil
  | cons pn rest ih =>
    intro hnd hn
    obtain ⟨hp, hr⟩ := List.nodup_cons.mp hnd
    unfold replaceFirst
    split
    · refine List.nodup_cons.mpr ⟨?_, hr⟩
      intro hmem
      exact hn (List.mem_cons_of_mem _ hmem)
    · refine List.nodup_cons.mpr
        ⟨?_, ih hr (fun h => hn (List.mem_cons_of_mem _ h))⟩
      intro hmem
      rcases mem_replaceFirst o n pn rest hmem with h | h
      · exact hp h
      · exact hn (h ▸ List.mem_cons_self _ _)

theorem countCommonPrefix_take :
    ∀ (l2 l1 : List PatchName), l1.take l2.length = l2 →
    countCommonPrefix l1 l2 = l2.length := by
  intro l2
  induction l2 with
  | nil => intro l1 _; cases l1 <;> rfl
  | cons b bs ih =>
    intro l1 h
    cases l1 with
    | nil => simp at h
    | cons a t =>
      simp only [List.length_cons, List.take_succ_cons, List.cons.injEq] at h
      rw [h.1] at *
      unfold countCommonPrefix
      rw [if_pos rfl, ih t h.2]
      rfl

theorem printPushed_lists (pn : PatchName) (st0 : PushStatus) (il : Bool)
    (w : St) :
    (printPushed pn st0 il w).trans.applied = w.trans.applied ∧
    (printPushed pn st0 il w).trans.unapplied = w.trans.unapplied ∧
    (printPushed pn st0 il w).trans.hidden = w.trans.hidden := by
  unfold printPushed emit
  split <;> exact ⟨rfl, rfl, rfl⟩

theorem printRename_lists (o n : PatchName) (w : St) :
    (printRename o n w).trans = w.trans := rfl

theorem resetToState_lists (state : StackState) (s : St)
    (hok : (resetToState state s).1 = .ok ()) :
    (resetToState state s).2.trans.applied = state.applied ∧
    (resetToState state s).2.trans.unapplied = state.unapplied ∧
    (resetToState state s).2.trans.hidden = state.hidden := by
  unfold resetToState at hok ⊢
  dsimp only at hok ⊢
  split at hok
  · simp at hok
  · exact ⟨rfl, rfl, rfl⟩

theorem nodup_snoc (l : List PatchName) (pn : PatchName) (hnd : l.Nodup)
    (hpn : pn ∉ l) : (l ++ [pn]).Nodup := by
  refine List.nodup_append.mpr ⟨hnd, List.nodup_singleton pn, ?_⟩
  intro x hx hx2
  rw [List.mem_singleton.mp hx2] at hx
  exact hpn hx

theorem chain_move_perm (a u h : List PatchName) (pn : PatchName)
    (hm : pn ∈ u ∨ pn ∈ h) :
    List.Perm ((a ++ [pn]) ++ (if pn ∈ u then u.erase pn else u) ++
      (if pn ∈ u then h else if pn ∈ h then h.erase pn else h))
      (a ++ u ++ h) := by
  by_cases hu : pn ∈ u
  · simp only [hu, if_true]
    refine List.Perm.append_right h ?_
    simp only [List.append_assoc]
    refine List.Perm.append_left a ?_
    exact (List.perm_cons_erase hu).symm
  · have hh : pn ∈ h := hm.resolve_left hu
    simp only [hu, if_false, hh, if_true]
    simp only [List.append_assoc]
    refine List.Perm.append_left a ?_
    have p1 : List.Perm ([pn] ++ (u ++ h.erase pn))
        ((u ++ h.erase pn) ++ [pn]) := List.perm_append_comm
    have p3 : List.Perm (h.erase pn ++ [pn]) h := by
      have q1 : List.Perm (h.erase pn ++ [pn]) ([pn] ++ h.erase pn) :=
        List.perm_append_comm
      exact q1.trans (List.perm_cons_erase hh).symm
    have p4 : List.Perm ((u ++ h.erase pn) ++ [pn]) (u ++ h) := by
      rw [List.append_assoc]
      exact List.Perm.append_left u p3
    exact p1.trans p4

theorem chainNodup_disjoint (t : StackTransaction) (h : chainNodup t) :
    listsDisjoint t := by
  unfold chainNodup StackTransaction.allPatches at h
  obtain ⟨h1, h2, h3⟩ := List.nodup_append.mp h
  obtain ⟨h4, h5, h6⟩ := List.nodup_append.mp h1
  refine ⟨h6, ?_, ?_⟩
  · intro x hx hx2
    exact h3 (List.mem_append_left _ hx) hx2
  · intro x hx hx2
    exact h3 (List.mem_append_right _ hx) hx2

theorem mem_fromListIS (l : List Nat) (x : Nat) :
    x ∈ fromListIS l ↔ x ∈ l := by
  unfold fromListIS
  suffices hgen : ∀ (acc : List Nat),
      (x ∈ l.foldl (fun s y => insertIS y s) acc ↔ x ∈ acc ∨ x ∈ l) by
    simpa using hgen []
  induction l with
  | nil => intro acc; simp
  | cons a t ih =>
    intro acc
    simp only [List.foldl_cons]
    rw [ih (insertIS a acc)]
    unfold insertIS
    split
    next hmem =>
      constructor
      · rintro (hx | hx)
        · exact Or.inl hx
        · exact Or.inr (List.mem_cons_of_mem _ hx)
      · rintro (hx | hx)
        · exact Or.inl hx
        · rcases List.mem_cons.mp hx with rfl | hx2
          · exact Or.inl hmem
          · exact Or.inr hx2
    next hmem =>
      constructor
      · rintro (hx | hx)
        · rcases List.mem_append.mp hx with hx2 | hx2
          · exact Or.inl hx2
          · exact Or.inr (List.mem_singleton.mp hx2 ▸ List.mem_cons_self _ _)
        · exact Or.inr (List.mem_cons_of_mem _ hx)
      · rintro (hx | hx)
        · exact Or.inl (List.mem_append_left _ hx)
        · rcases List.mem_cons.mp hx with rfl | hx2
          · exact Or.inl (List.mem_append_right _ (List.mem_singleton.mpr rfl))
          · exact Or.inr hx2

theorem pushPatchCompute_lists (env : Env) (pn : PatchName) (am : Bool)
    (pt opt npt : Oid) (tempIdx : Option Oid) (s : St) :
    (pushPatchCompute env pn am pt opt npt tempIdx s).2.2.trans.unapplied =
      s.trans.unapplied ∧
    (pushPatchCompute env pn am pt opt npt tempIdx s).2.2.trans.hidden =
      s.trans.hidden := by
  unfold pushPatchCompute
  split
  · exact ⟨rfl, rfl⟩
  · split
    · exact ⟨rfl, rfl⟩
    · split
      · exact ⟨rfl, rfl⟩
      · split
        · exact ⟨rfl, rfl⟩
        · exact ⟨(pushPatchMerge_immutable env pn opt _ _ tempIdx s).2.1,
            (pushPatchMerge_immutable env pn opt _ _ tempIdx s).2.2.1⟩

set_option maxHeartbeats 1000000 in
theorem pushPatchFinish_uh (pn : PatchName) (isLast : Bool) (pc : Oid)
    (pcd : CommitData) (opOid npOid npdTree nt : Oid) (st0 : PushStatus)
    (s : St) :
    (pushPatchFinish pn isLast pc pcd opOid npOid npdTree nt st0
      s).2.trans.unapplied =
      (if pn ∈ s.trans.unapplied then s.trans.unapplied.erase pn
       else s.trans.unapplied) ∧
    (pushPatchFinish pn isLast pc pcd opOid npOid npdTree nt st0
      s).2.trans.hidden =
      (if pn ∈ s.trans.unapplied then s.trans.hidden
       else if pn ∈ s.trans.hidden then s.trans.hidden.erase pn
       else s.trans.hidden) := by
  unfold pushPatchFinish
  repeat' split
  all_goals try dsimp only [printPushed, emit, setUpdated]
  all_goals repeat' split
  all_goals simp_all

theorem printMerged_lists (pns : List PatchName) (w : St) :
    (printMerged pns w).trans = w.trans := by
  unfold printMerged emit
  split <;> simp

theorem checkMergedLoop_trans (env : Env) : ∀ (revPns : List PatchName)
    (tempIdx : Option Oid) (merged : List PatchName) (s : St),
    (checkMergedLoop env revPns tempIdx merged s).2.2.trans = s.trans := by
  intro revPns
  induction revPns with
  | nil => intro tempIdx merged s; rfl
  | cons pn rest ih =>
    intro tempIdx merged s
    unfold checkMergedLoop
    repeat' split
    all_goals try rfl
    all_goals exact ih _ _ _

theorem checkMerged_trans (env : Env) (pns : List PatchName)
    (tempIdx : Option Oid) (s : St) :
    (checkMerged env pns tempIdx s).2.2.trans = s.trans := by
  unfold checkMerged
  split
  · rfl
  next headTreeId heq1 =>
    have h2 : (if tempIdx ≠ some headTreeId
        then (some headTreeId, emit (.readTree headTreeId) s)
        else (tempIdx, s)).2.trans = s.trans := by
      split <;> rfl
    dsimp only
    split
    next e ti3 s3 heqL =>
      have h := congrArg (fun x => x.2.2.trans) heqL
      simp only [checkMergedLoop_trans] at h
      exact h.symm.trans h2
    next merged ti3 s3 heqL =>
      have h := congrArg (fun x => x.2.2.trans) heqL
      simp only [checkMergedLoop_trans] at h
      rw [printMerged_lists]
      exact h.symm.trans h2

theorem pushPatch_lists (env : Env) (pn : PatchName) (am il : Bool)
    (ti : Option Oid) (s : St)
    (hok : (pushPatch env pn am il ti s).1 = .ok ()) :
    (pushPatch env pn am il ti s).2.2.trans.applied =
      s.trans.applied ++ [pn] ∧
    (pushPatch env pn am il ti s).2.2.trans.unapplied =
      (if pn ∈ s.trans.unapplied then s.trans.unapplied.erase pn
       else s.trans.unapplied) ∧
    (pushPatch env pn am il ti s).2.2.trans.hidden =
      (if pn ∈ s.trans.unapplied then s.trans.hidden
       else if pn ∈ s.trans.hidden then s.trans.hidden.erase pn
       else s.trans.hidden) := by
  unfold pushPatch at hok ⊢
  cases h1 : s.trans.getPatchCommit pn <;> simp only [h1] at hok ⊢
  · simp at hok
  rename_i pc
  cases h2 : s.repo.find pc <;> simp only [h2] at hok ⊢
  · simp at hok
  rename_i pcd
  cases h3 : pcd.parents.head? <;> simp only [h3] at hok ⊢
  · simp at hok
  rename_i opOid
  cases h4 : s.repo.treeOf opOid <;> simp only [h4] at hok ⊢
  · simp at hok
  rename_i opt
  cases h5 : s.trans.topO <;> simp only [h5] at hok ⊢
  · simp at hok
  rename_i npOid
  cases h6 : s.repo.treeOf npOid <;> simp only [h6] at hok ⊢
  · simp at hok
  rename_i npt
  cases h7 : pushPatchCompute env pn am pcd.tree opt npt ti s with
  | mk r1 rest1 =>
    rcases rest1 with ⟨ti2, sc⟩
    cases r1 with
    | error e =>
      simp only [h7] at hok ⊢
      simp at hok
    | ok p =>
      rcases p with ⟨nt, st0⟩
      simp only [h7] at hok ⊢
      have hca : sc.trans.applied = s.trans.applied := by
        have h := congrArg (fun x => x.2.2.trans.applied) h7
        simpa [pushPatchCompute_applied] using h.symm
      have hcu : sc.trans.unapplied = s.trans.unapplied := by
        have h := congrArg (fun x => x.2.2.trans.unapplied) h7
        simpa [(pushPatchCompute_lists env pn am pcd.tree opt npt ti s).1]
          using h.symm
      have hch : sc.trans.hidden = s.trans.hidden := by
        have h := congrArg (fun x => x.2.2.trans.hidden) h7
        simpa [(pushPatchCompute_lists env pn am pcd.tree opt npt ti s).2]
          using h.symm
      have hfin := pushPatchFinish_uh pn il pc pcd opOid npOid npt nt st0 sc
      have hfa := (pushPatchFinish_classify pn il pc pcd opOid npOid npt nt
        st0 sc).2
      rw [hcu, hch] at hfin
      rw [hca] at hfa
      exact ⟨hfa, hfin.1, hfin.2⟩

theorem pushPatchesLoop_chain (env : Env) : ∀ (pns : List PatchName)
    (merged : Option (List PatchName)) (ti : Option Oid) (s : St),
    chainNodup s.trans → pns.Nodup →
    (∀ x ∈ pns, x ∈ s.trans.unapplied ∨ x ∈ s.trans.hidden) →
    (pushPatchesLoop env pns merged ti s).1 = .ok () →
    chainNodup (pushPatchesLoop env pns merged ti s).2.2.trans ∧
    (∀ y, y ∈ (pushPatchesLoop env pns merged ti s).2.2.trans.allPatches ↔
      y ∈ s.trans.allPatches) := by
  intro pns
  induction pns with
  | nil =>
    intro merged ti s h1 _ _ _
    exact ⟨h1, fun y => Iff.rfl⟩
  | cons pn rest ih =>
    intro merged ti s hnd hpns hmem hok
    unfold pushPatchesLoop at hok ⊢
    dsimp only at hok ⊢
    cases hpp : pushPatch env pn ((merged.map (fun m => m.contains pn)).getD
        false) rest.isEmpty ti s with
    | mk r1 rest1 =>
      rcases rest1 with ⟨ti2, s2⟩
      cases r1 with
      | error e =>
        simp only [hpp] at hok
        simp at hok
      | ok u0 =>
        simp only [hpp] at hok ⊢
        have hok1 : (pushPatch env pn ((merged.map
            (fun m => m.contains pn)).getD false) rest.isEmpty ti s).1 =
            .ok () := by
          rw [hpp]
        obtain ⟨ha, hu, hh⟩ := pushPatch_lists env pn _ _ ti s hok1
        rw [hpp] at ha hu hh
        dsimp only at ha hu hh
        have hperm : List.Perm s2.trans.allPatches s.trans.allPatches := by
          unfold StackTransaction.allPatches
          rw [ha, hu, hh]
          exact chain_move_perm s.trans.applied s.trans.unapplied
            s.trans.hidden pn (hmem pn (List.mem_cons_self _ _))
        have hnd2 : chainNodup s2.trans := hperm.nodup_iff.mpr hnd
        obtain ⟨hp1, hp2⟩ := List.nodup_cons.mp hpns
        have hmem2 : ∀ x ∈ rest, x ∈ s2.trans.unapplied ∨
            x ∈ s2.trans.hidden := by
          intro x hx
          have hne : x ≠ pn := fun hxe => hp1 (hxe ▸ hx)
          rcases hmem x (List.mem_cons_of_mem _ hx) with hxu | hxh
          · rw [hu]
            split
            · exact Or.inl ((List.mem_erase_of_ne hne).mpr hxu)
            · exact Or.inl hxu
          · rw [hh]
            split
            · exact Or.inr hxh
            · split
              · exact Or.inr ((List.mem_erase_of_ne hne).mpr hxh)
              · exact Or.inr hxh
        obtain ⟨hc1, hc2⟩ := ih merged ti2 s2 hnd2 hp2 hmem2 hok
        exact ⟨hc1, fun y => (hc2 y).trans (hperm.mem_iff)⟩

theorem pushPatches_chain (env : Env) (pns : List PatchName) (cm : Bool)
    (s : St) (hnd : chainNodup s.trans) (hpns : pns.Nodup)
    (hmem : ∀ x ∈ pns, x ∈ s.trans.unapplied ∨ x ∈ s.trans.hidden)
    (hok : (pushPatches env pns cm s).1 = .ok ()) :
    chainNodup (pushPatches env pns cm s).2.trans ∧
    (∀ y, y ∈ (pushPatches env pns cm s).2.trans.allPatches ↔
      y ∈ s.trans.allPatches) := by
  unfold pushPatches at hok ⊢
  revert hok
  split
  · split
    next e ti2 s2 heq =>
      intro hok
      simp at hok
    next merged ti2 s2 heq =>
      have hst : s2.trans = s.trans := by
        have h := congrArg (fun x => x.2.2.trans) heq
        simpa [checkMerged_trans] using h.symm
      have hnd2 : chainNodup s2.trans := by rw [hst]; exact hnd
      have hmem2 : ∀ x ∈ pns, x ∈ s2.trans.unapplied ∨
          x ∈ s2.trans.hidden := by rw [hst]; exact hmem
      split
      next r ti3 s3 heq2 =>
        intro hok
        cases r with
        | error e2 => simp at hok
        | ok u =>
          have hok2 : (pushPatchesLoop env pns (some merged) ti2 s2).1 =
              .ok () := by
            have h := congrArg (fun x => x.1) heq2
            simp only at h
            rw [h]
          obtain ⟨hc1, hc2⟩ := pushPatchesLoop_chain env pns (some merged)
            ti2 s2 hnd2 hpns hmem2 hok2
          rw [heq2] at hc1 hc2
          exact ⟨hc1, fun y => (hc2 y).trans (by rw [hst])⟩
  · split
    next r ti3 s3 heq2 =>
      intro hok
      cases r with
      | error e2 => simp at hok
      | ok u =>
        have hok2 : (pushPatchesLoop env pns none none s).1 = .ok () := by
          have h := congrArg (fun x => x.1) heq2
          simp only at h
          rw [h]
        obtain ⟨hc1, hc2⟩ := pushPatchesLoop_chain env pns none none s hnd
          hpns hmem hok2
        rw [heq2] at hc1 hc2
        exact ⟨hc1, hc2⟩

theorem not_mem_of_filter_out {l pns : List PatchName} {x : PatchName}
    (hx : x ∈ l.filter (fun pn => !pns.contains pn)) : x ∉ pns := by
  have h := List.of_mem_filter hx
  simp at h
  exact h

theorem reorderAssign_lists (u h : Option (List PatchName)) (s : St) :
    (reorderAssign u h s).trans.applied = s.trans.applied ∧
    (reorderAssign u h s).trans.unapplied = u.getD s.trans.unapplied ∧
    (reorderAssign u h s).trans.hidden = h.getD s.trans.hidden := by
  unfold reorderAssign
  cases u <;> cases h <;> simp

theorem hide_chain_nodup (a u h pns : List PatchName)
    (hnd : ((a ++ u) ++ h).Nodup) (hpns : pns.Nodup)
    (hmem : ∀ x ∈ pns, x ∈ a ∨ x ∈ u) :
    ((a.filter (fun pn => !pns.contains pn) ++
      u.filter (fun pn => !pns.contains pn)) ++ (pns ++ h)).Nodup := by
  obtain ⟨hau, hh, hdis⟩ := List.nodup_append.mp hnd
  obtain ⟨ha, hu, hdau⟩ := List.nodup_append.mp hau
  refine List.nodup_append.mpr ⟨?_, ?_, ?_⟩
  · refine List.nodup_append.mpr ⟨ha.filter _, hu.filter _, ?_⟩
    intro x hx hx2
    exact hdau (List.mem_of_mem_filter hx) (List.mem_of_mem_filter hx2)
  · refine List.nodup_append.mpr ⟨hpns, hh, ?_⟩
    intro x hx hx2
    rcases hmem x hx with h1 | h1
    · exact hdis (List.mem_append_left u h1) hx2
    · exact hdis (List.mem_append_right a h1) hx2
  · intro x hx hx2
    rcases List.mem_append.mp hx2 with hx3 | hx3
    · rcases List.mem_append.mp hx with hx4 | hx4
      · exact not_mem_of_filter_out hx4 hx3
      · exact not_mem_of_filter_out hx4 hx3
    · rcases List.mem_append.mp hx with hx4 | hx4
      · exact hdis (List.mem_append_left u (List.mem_of_mem_filter hx4)) hx3
      · exact hdis (List.mem_append_right a (List.mem_of_mem_filter hx4)) hx3

theorem unhide_chain_nodup (a u h pns : List PatchName)
    (hnd : ((a ++ u) ++ h).Nodup) (hpns : pns.Nodup)
    (hmem : ∀ x ∈ pns, x ∈ h) :
    ((a ++ (u ++ pns)) ++
      h.filter (fun pn => !pns.contains pn)).Nodup := by
  obtain ⟨hau, hh, hdis⟩ := List.nodup_append.mp hnd
  obtain ⟨ha, hu, hdau⟩ := List.nodup_append.mp hau
  refine List.nodup_append.mpr ⟨?_, hh.filter _, ?_⟩
  · refine List.nodup_append.mpr ⟨ha, ?_, ?_⟩
    · refine List.nodup_append.mpr ⟨hu, hpns, ?_⟩
      intro x hx hx2
      exact hdis (List.mem_append_right a hx) (hmem x hx2)
    · intro x hx hx2
      rcases List.mem_append.mp hx2 with hx3 | hx3
      · exact hdau hx hx3
      · exact hdis (List.mem_append_left u hx) (hmem x hx3)
  · intro x hx hx2
    rcases List.mem_append.mp hx with hx3 | hx3
    · exact hdis (List.mem_append_left u hx3) (List.mem_of_mem_filter hx2)
    · rcases List.mem_append.mp hx3 with hx4 | hx4
      · exact hdis (List.mem_append_right a hx4) (List.mem_of_mem_filter hx2)
      · exact not_mem_of_filter_out hx2 hx4

theorem chain_replaceFirst_a (a u h : List PatchName) (o n : PatchName)
    (hnd : ((a ++ u) ++ h).Nodup) (hn : n ∉ (a ++ u) ++ h) :
    ((replaceFirst o n a ++ u) ++ h).Nodup := by
  obtain ⟨hau, hh, hdis⟩ := List.nodup_append.mp hnd
  obtain ⟨ha, hu, hdau⟩ := List.nodup_append.mp hau
  have hna : n ∉ a := fun hx =>
    hn (List.mem_append_left h (List.mem_append_left u hx))
  refine List.nodup_append.mpr
    ⟨List.nodup_append.mpr ⟨nodup_replaceFirst o n a ha hna, hu, ?_⟩,
     hh, ?_⟩
  · intro x hx hx2
    rcases mem_replaceFirst o n x a hx with h1 | rfl
    · exact hdau h1 hx2
    · exact hn (List.mem_append_left h (List.mem_append_right a hx2))
  · intro x hx hx2
    rcases List.mem_append.mp hx with hx3 | hx3
    · rcases mem_replaceFirst o n x a hx3 with h1 | rfl
      · exact hdis (List.mem_append_left u h1) hx2
      · exact hn (List.mem_append_right _ hx2)
    · exact hdis (List.mem_append_right a hx3) hx2

theorem chain_replaceFirst_u (a u h : List PatchName) (o n : PatchName)
    (hnd : ((a ++ u) ++ h).Nodup) (hn : n ∉ (a ++ u) ++ h) :
    ((a ++ replaceFirst o n u) ++ h).Nodup := by
  obtain ⟨hau, hh, hdis⟩ := List.nodup_append.mp hnd
  obtain ⟨ha, hu, hdau⟩ := List.nodup_append.mp hau
  have hnu : n ∉ u := fun hx =>
    hn (List.mem_append_left h (List.mem_append_right a hx))
  refine List.nodup_append.mpr
    ⟨List.nodup_append.mpr ⟨ha, nodup_replaceFirst o n u hu hnu, ?_⟩,
     hh, ?_⟩
  · intro x hx hx2
    rcases mem_replaceFirst o n x u hx2 with h1 | h1
    · exact hdau hx h1
    · exact hn (h1 ▸ List.mem_append_left h (List.mem_append_left u hx))
  · intro x hx hx2
    rcases List.mem_append.mp hx with hx3 | hx3
    · exact hdis (List.mem_append_left u hx3) hx2
    · rcases mem_replaceFirst o n x u hx3 with h1 | rfl
      · exact hdis (List.mem_append_right a h1) hx2
      · exact hn (List.mem_append_right _ hx2)

theorem chain_replaceFirst_h (a u h : List PatchName) (o n : PatchName)
    (hnd : ((a ++ u) ++ h).Nodup) (hn : n ∉ (a ++ u) ++ h) :
    ((a ++ u) ++ replaceFirst o n h).Nodup := by
  obtain ⟨hau, hh, hdis⟩ := List.nodup_append.mp hnd
  have hnh : n ∉ h := fun hx => hn (List.mem_append_right _ hx)
  refine List.nodup_append.mpr
    ⟨hau, nodup_replaceFirst o n h hh hnh, ?_⟩
  intro x hx hx2
  rcases mem_replaceFirst o n x h hx2 with h1 | rfl
  · exact hdis hx h1
  · exact hn (List.mem_append_left h hx)

theorem foldl_setUpdated_lists (l : List PatchName) : ∀ (s : St),
    (l.foldl (fun s pn => setUpdated pn none s) s).trans.applied =
      s.trans.applied ∧
    (l.foldl (fun s pn => setUpdated pn none s) s).trans.unapplied =
      s.trans.unapplied ∧
    (l.foldl (fun s pn => setUpdated pn none s) s).trans.hidden =
      s.trans.hidden := by
  induction l with
  | nil => intro s; exact ⟨rfl, rfl, rfl⟩
  | cons pn rest ih =>
    intro s
    simp only [List.foldl_cons]
    exact ih (setUpdated pn none s)

theorem snoc_mid_perm (x y : List PatchName) (p : PatchName) :
    List.Perm ((x ++ [p]) ++ y) ((x ++ y) ++ [p]) := by
  simp only [List.append_assoc]
  exact List.Perm.append_left x List.perm_append_comm

theorem commitPatches_chain (env : Env) (tc : List PatchName) (s : St)
    (hnd : chainNodup s.trans)
    (hpre : s.trans.applied.take tc.length = tc)
    (hok : (commitPatches env tc s).1 = .ok ()) :
    chainNodup (commitPatches env tc s).2.trans := by
  have hcc : countCommonPrefix s.trans.applied tc = tc.length :=
    countCommonPrefix_take tc s.trans.applied hpre
  have hle : tc.length ≤ s.trans.applied.length := by
    have h := congrArg List.length hpre
    rw [List.length_take] at h
    omega
  unfold commitPatches at hok ⊢
  dsimp only at hok ⊢
  rw [hcc] at hok ⊢
  simp only [lt_self_iff_false, if_false, bindR] at hok ⊢
  cases hgl : tc.getLast? <;> simp only [hgl] at hok ⊢
  · simp at hok
  rename_i lastPn
  cases hgp : (printCommitted tc s).trans.getPatchCommit lastPn <;>
    simp only [hgp] at hok ⊢
  · simp at hok
  rename_i lastCommit
  rw [(foldl_setUpdated_lists tc _).1] at hok ⊢
  simp only [printCommitted_lists] at hok ⊢
  rw [if_pos hle] at hok ⊢
  rw [pushPatches_nil] at hok ⊢
  unfold chainNodup StackTransaction.allPatches
  rw [(foldl_setUpdated_lists tc _).2.1, (foldl_setUpdated_lists tc _).2.2]
  simp only [printCommitted_lists]
  have hsub : ((s.trans.applied.drop tc.length ++ s.trans.unapplied) ++
      s.trans.hidden).Sublist
      ((s.trans.applied ++ s.trans.unapplied) ++ s.trans.hidden) :=
    List.Sublist.append
      (List.Sublist.append (List.drop_sublist _ _) (List.Sublist.refl _))
      (List.Sublist.refl _)
  exact hsub.nodup hnd

theorem resetInstallLoop_chain (stateArg : StackState)
    (existing matching : List PatchName) :
    ∀ (pns : List PatchName) (s : St),
    chainNodup s.trans → pns.Nodup →
    (∀ x ∈ pns, existing.contains x = false → x ∉ s.trans.allPatches) →
    chainNodup (resetInstallLoop stateArg existing matching pns
      s).2.trans ∧
    (∀ y, y ∈ (resetInstallLoop stateArg existing matching pns
        s).2.trans.allPatches → y ∈ s.trans.allPatches ∨ y ∈ pns) := by
  intro pns
  induction pns with
  | nil =>
    intro s hnd _ _
    exact ⟨hnd, fun y hy => Or.inl hy⟩
  | cons pn rest ih =>
    intro s hnd hpns hfresh
    obtain ⟨hp1, hp2⟩ := List.nodup_cons.mp hpns
    unfold resetInstallLoop
    by_cases hboth : (existing.contains pn && matching.contains pn) = true
    · rw [if_pos hboth]
      obtain ⟨hc1, hc2⟩ := ih s hnd hp2 (fun x hx hcx =>
        hfresh x (List.mem_cons_of_mem _ hx) hcx)
      exact ⟨hc1, fun y hy => (hc2 y hy).imp id (List.mem_cons_of_mem _)⟩
    · rw [if_neg hboth]
      by_cases hex : existing.contains pn = true
      · rw [if_pos hex]
        cases hlk : lookupA pn stateArg.patches <;> simp only [hlk]
        · exact ⟨hnd, fun y hy => Or.inl hy⟩
        · rename_i ps
          obtain ⟨hc1, hc2⟩ := ih
            (printUpdated pn (setUpdated pn (some ps) s)) hnd hp2
            (fun x hx hcx => hfresh x (List.mem_cons_of_mem _ hx) hcx)
          exact ⟨hc1, fun y hy => (hc2 y hy).imp id
            (List.mem_cons_of_mem _)⟩
      · rw [if_neg hex]
        have hfz : existing.contains pn = false := by
          cases hq : existing.contains pn
          · rfl
          · exact absurd hq hex
        have hnm : pn ∉ s.trans.allPatches :=
          hfresh pn (List.mem_cons_self _ _) hfz
        by_cases hhid : stateArg.hidden.contains pn = true
        · rw [if_pos hhid]
          have hs1nd : chainNodup { s with trans := { s.trans with
              hidden := s.trans.hidden ++ [pn] } }.trans := by
            show ((s.trans.applied ++ s.trans.unapplied) ++
              (s.trans.hidden ++ [pn])).Nodup
            rw [← List.append_assoc]
            exact nodup_snoc _ pn hnd hnm
          have hs1m : ∀ y, y ∈ ({ s with trans := { s.trans with
              hidden := s.trans.hidden ++ [pn] } } :
                St).trans.allPatches →
              y ∈ s.trans.allPatches ∨ y = pn := by
            intro y hy
            have hy1 : y ∈ (s.trans.applied ++ s.trans.unapplied) ++
                (s.trans.hidden ++ [pn]) := hy
            rw [← List.append_assoc] at hy1
            rcases List.mem_append.mp hy1 with hy2 | hy2
            · exact Or.inl hy2
            · exact Or.inr (List.mem_singleton.mp hy2)
          cases hlk : lookupA pn stateArg.patches <;> simp only [hlk]
          · exact ⟨hs1nd, fun y hy => (hs1m y hy).imp id
              (fun (he : _ = pn) => by rw [he]; exact List.mem_cons_self _ _)⟩
          · rename_i ps
            obtain ⟨hc1, hc2⟩ := ih
              (printUpdated pn (setUpdated pn (some ps)
                { s with trans := { s.trans with
                  hidden := s.trans.hidden ++ [pn] } })) hs1nd hp2
              (fun x hx hcx hmem2 => by
                rcases hs1m x hmem2 with hm | hm
                · exact hfresh x (List.mem_cons_of_mem _ hx) hcx hm
                · exact hp1 (hm ▸ hx))
            refine ⟨hc1, fun y hy => ?_⟩
            rcases hc2 y hy with hy2 | hy2
            · exact (hs1m y hy2).imp id
                (fun (he : _ = pn) => by rw [he]; exact List.mem_cons_self _ _)
            · exact Or.inr (List.mem_cons_of_mem _ hy2)
        · rw [if_neg hhid]
          have hperm : List.Perm ((s.trans.applied ++
              (s.trans.unapplied ++ [pn])) ++ s.trans.hidden)
              (((s.trans.applied ++ s.trans.unapplied) ++
                s.trans.hidden) ++ [pn]) := by
            rw [← List.append_assoc]
            exact snoc_mid_perm _ _ pn
          have hs1nd : chainNodup { s with trans := { s.trans with
              unapplied := s.trans.unapplied ++ [pn] } }.trans := by
            show ((s.trans.applied ++ (s.trans.unapplied ++ [pn])) ++
              s.trans.hidden).Nodup
            exact hperm.nodup_iff.mpr (nodup_snoc _ pn hnd hnm)
          have hs1m : ∀ y, y ∈ ({ s with trans := { s.trans with
              unapplied := s.trans.unapplied ++ [pn] } } :
                St).trans.allPatches →
              y ∈ s.trans.allPatches ∨ y = pn := by
            intro y hy
            have hy1 : y ∈ ((s.trans.applied ++ s.trans.unapplied) ++
                s.trans.hidden) ++ [pn] := hperm.subset hy
            rcases List.mem_append.mp hy1 with hy2 | hy2
            · exact Or.inl hy2
            · exact Or.inr (List.mem_singleton.mp hy2)
          cases hlk : lookupA pn stateArg.patches <;> simp only [hlk]
          · exact ⟨hs1nd, fun y hy => (hs1m y hy).imp id
              (fun (he : _ = pn) => by rw [he]; exact List.mem_cons_self _ _)⟩
          · rename_i ps
            obtain ⟨hc1, hc2⟩ := ih
              (printUpdated pn (setUpdated pn (some ps)
                { s with trans := { s.trans with
                  unapplied := s.trans.unapplied ++ [pn] } })) hs1nd hp2
              (fun x hx hcx hmem2 => by
                rcases hs1m x hmem2 with hm | hm
                · exact hfresh x (List.mem_cons_of_mem _ hx) hcx hm
                · exact hp1 (hm ▸ hx))
            refine ⟨hc1, fun y hy => ?_⟩
            rcases hc2 y hy with hy2 | hy2
            · exact (hs1m y hy2).imp id
                (fun (he : _ = pn) => by rw [he]; exact List.mem_cons_self _ _)
            · exact Or.inr (List.mem_cons_of_mem _ hy2)

theorem contains_false_iff (l : List Nat) (x : Nat) :
    l.contains x = false ↔ x ∉ l := by
  simp

theorem contains_true_iff (l : List Nat) (x : Nat) :
    l.contains x = true ↔ x ∈ l := by
  simp

theorem uncommit_chain_nodup (a u h ns : List PatchName)
    (hnd : ((a ++ u) ++ h).Nodup) (hns : ns.Nodup)
    (hf : ∀ x ∈ ns, x ∉ (a ++ u) ++ h) :
    (((ns ++ a) ++ u) ++ h).Nodup := by
  obtain ⟨hau, hh, hdis⟩ := List.nodup_append.mp hnd
  obtain ⟨ha, hu, hdau⟩ := List.nodup_append.mp hau
  refine List.nodup_append.mpr ⟨List.nodup_append.mpr
    ⟨List.nodup_append.mpr ⟨hns, ha, ?_⟩, hu, ?_⟩, hh, ?_⟩
  · intro x hx hx2
    exact hf x hx (List.mem_append_left h (List.mem_append_left u hx2))
  · intro x hx hx2
    rcases List.mem_append.mp hx with hx3 | hx3
    · exact hf x hx3 (List.mem_append_left h (List.mem_append_right a hx2))
    · exact hdau hx3 hx2
  · intro x hx hx2
    rcases List.mem_append.mp hx with hx3 | hx3
    · rcases List.mem_append.mp hx3 with hx4 | hx4
      · exact hf x hx4 (List.mem_append_right _ hx2)
      · exact hdis (List.mem_append_left u hx4) hx2
    · exact hdis (List.mem_append_right a hx3) hx2

theorem updatePatch_chain (pn : PatchName) (cid : Oid) (s : St)
    (hinv : chainNodup s.trans) :
    chainNodup (updatePatch pn cid s).2.trans := by
  unfold updatePatch
  repeat' split
  all_goals exact hinv

theorem newApplied_chain (pn : PatchName) (cid : Oid) (s : St)
    (hinv : chainNodup s.trans) (hfresh : pn ∉ s.trans.allPatches) :
    chainNodup (newApplied pn cid s).2.trans := by
  unfold newApplied
  repeat' split
  all_goals try exact hinv
  show (((s.trans.applied ++ [pn]) ++ s.trans.unapplied) ++
    s.trans.hidden).Nodup
  have hperm : List.Perm (((s.trans.applied ++ [pn]) ++
      s.trans.unapplied) ++ s.trans.hidden)
      (((s.trans.applied ++ s.trans.unapplied) ++ s.trans.hidden) ++
        [pn]) :=
    ((snoc_mid_perm s.trans.applied s.trans.unapplied pn).append_right
      s.trans.hidden).trans
      (snoc_mid_perm (s.trans.applied ++ s.trans.unapplied)
        s.trans.hidden pn)
  exact hperm.nodup_iff.mpr (nodup_snoc _ pn hinv hfresh)

theorem newUnapplied_chain (pn : PatchName) (cid : Oid) (pos : Nat) (s : St)
    (hinv : chainNodup s.trans) (hfresh : pn ∉ s.trans.allPatches) :
    chainNodup (newUnapplied pn cid pos s).2.trans := by
  unfold newUnapplied
  repeat' split
  all_goals try exact hinv
  next hle =>
  show ((s.trans.applied ++ s.trans.unapplied.insertIdx pos pn) ++
    s.trans.hidden).Nodup
  have hp1 : List.Perm (s.trans.unapplied.insertIdx pos pn)
      (pn :: s.trans.unapplied) := List.perm_insertIdx pn _ hle
  have hperm : List.Perm ((s.trans.applied ++
      s.trans.unapplied.insertIdx pos pn) ++ s.trans.hidden)
      (((s.trans.applied ++ s.trans.unapplied) ++ s.trans.hidden) ++
        [pn]) := by
    refine ((hp1.append_left s.trans.applied).append_right
      s.trans.hidden).trans ?_
    rw [show s.trans.applied ++ pn :: s.trans.unapplied =
      (s.trans.applied ++ [pn]) ++ s.trans.unapplied by simp]
    exact ((snoc_mid_perm s.trans.applied s.trans.unapplied pn).append_right
      s.trans.hidden).trans
      (snoc_mid_perm (s.trans.applied ++ s.trans.unapplied)
        s.trans.hidden pn)
  exact hperm.nodup_iff.mpr (nodup_snoc _ pn hinv hfresh)

theorem pushTreeFinish_chain (pn : PatchName) (status : PushStatus)
    (il : Bool) (w : St) (hinv : chainNodup w.trans) :
    chainNodup (pushTreeFinish pn status il w).2.trans := by
  unfold pushTreeFinish
  by_cases hu : pn ∈ w.trans.unapplied
  · rw [if_pos hu]
    dsimp only
    unfold chainNodup StackTransaction.allPatches
    rw [(printPushed_lists pn status il _).1,
      (printPushed_lists pn status il _).2.1,
      (printPushed_lists pn status il _).2.2]
    dsimp only
    have hperm := chain_move_perm w.trans.applied w.trans.unapplied
      w.trans.hidden pn (Or.inl hu)
    simp only [if_pos hu] at hperm
    exact hperm.nodup_iff.mpr hinv
  · rw [if_neg hu]
    by_cases hh : pn ∈ w.trans.hidden
    · rw [if_pos hh]
      dsimp only
      unfold chainNodup StackTransaction.allPatches
      rw [(printPushed_lists pn status il _).1,
        (printPushed_lists pn status il _).2.1,
        (printPushed_lists pn status il _).2.2]
      dsimp only
      have hperm := chain_move_perm w.trans.applied w.trans.unapplied
        w.trans.hidden pn (Or.inr hh)
      simp only [if_neg hu, if_pos hh] at hperm
      exact hperm.nodup_iff.mpr hinv
    · rw [if_neg hh]
      exact hinv

theorem pushTree_chain (pn : PatchName) (il : Bool) (s : St)
    (hinv : chainNodup s.trans) :
    chainNodup (pushTree pn il s).2.trans := by
  unfold pushTree
  repeat' split
  all_goals try exact hinv
  dsimp only
  exact pushTreeFinish_chain _ _ _ _ (by split <;> exact hinv)

theorem uncommitPatches_chain (ps : List (PatchName × Oid)) (s : St)
    (hinv : chainNodup s.trans) (hns : (ps.map Prod.fst).Nodup)
    (hf : ∀ x ∈ ps.map Prod.fst, x ∉ s.trans.allPatches)
    (hok : (uncommitPatches ps s).1 = .ok ()) :
    chainNodup (uncommitPatches ps s).2.trans := by
  obtain ⟨h1, h2, h3⟩ := uncommitPatches_lists ps s hok
  unfold chainNodup StackTransaction.allPatches
  rw [h1, h2, h3]
  exact uncommit_chain_nodup _ _ _ _ hinv hns hf

theorem hidePatches_lists (env : Env) (s : St) (toHide : List PatchName)
    (hok : (hidePatches env toHide s).1 = .ok ()) :
    (hidePatches env toHide s).2.trans.hidden = toHide ++ s.trans.hidden ∧
    (hidePatches env toHide s).2.trans.applied =
      s.trans.applied.filter (fun pn => !toHide.contains pn) ∧
    (hidePatches env toHide s).2.trans.unapplied =
      s.trans.unapplied.filter (fun pn => !toHide.contains pn) := by
  unfold hidePatches at hok ⊢
  obtain ⟨a, hx, heq⟩ := bindR_ok_elim hok
  rw [heq]
  have hro : (reorderPatches env
      (some (s.trans.applied.filter (fun pn => !toHide.contains pn)))
      (some (s.trans.unapplied.filter (fun pn => !toHide.contains pn)))
      (some (toHide ++ s.trans.hidden)) s).1 = .ok () := by
    rw [hx]
  have h3 := reorder_ok_lists env s _ _ _ hro
  have hp := printHidden_lists toHide (reorderPatches env
      (some (s.trans.applied.filter (fun pn => !toHide.contains pn)))
      (some (s.trans.unapplied.filter (fun pn => !toHide.contains pn)))
      (some (toHide ++ s.trans.hidden)) s).2
  exact ⟨hp.2.2.trans h3.2.2, hp.1.trans h3.1, hp.2.1.trans h3.2.1⟩

theorem hidePatches_chain (env : Env) (pns : List PatchName) (s : St)
    (hinv : chainNodup s.trans) (hns : pns.Nodup)
    (hmem : ∀ x ∈ pns, x ∈ s.trans.applied ∨ x ∈ s.trans.unapplied)
    (hok : (hidePatches env pns s).1 = .ok ()) :
    chainNodup (hidePatches env pns s).2.trans := by
  obtain ⟨hh, ha, hu⟩ := hidePatches_lists env s pns hok
  unfold chainNodup StackTransaction.allPatches
  rw [hh, ha, hu]
  exact hide_chain_nodup _ _ _ _ hinv hns hmem

theorem unhidePatches_chain (env : Env) (pns : List PatchName) (s : St)
    (hinv : chainNodup s.trans) (hns : pns.Nodup)
    (hmem : ∀ x ∈ pns, x ∈ s.trans.hidden) :
    chainNodup (unhidePatches env pns s).2.trans := by
  show chainNodup (printUnhidden pns (reorderAssign
    (some (s.trans.unapplied ++ pns))
    (some (s.trans.hidden.filter (fun pn => !pns.contains pn))) s)).trans
  unfold chainNodup StackTransaction.allPatches
  rw [printUnhidden_lists]
  rw [(reorderAssign_lists _ _ s).1, (reorderAssign_lists _ _ s).2.1,
    (reorderAssign_lists _ _ s).2.2]
  exact unhide_chain_nodup _ _ _ _ hinv hns hmem

theorem repairAppliedness_chain (a u h : List PatchName) (s : St)
    (hok : (repairAppliedness a u h s).1 = .ok ()) :
    chainNodup (repairAppliedness a u h s).2.trans := by
  unfold repairAppliedness at hok ⊢
  dsimp only at hok ⊢
  cases hrc : repairConsume (a ++ u ++ h)
      (fromListIS (s.trans.applied ++ s.trans.unapplied ++
        s.trans.hidden)) <;>
    simp only [hrc] at hok ⊢
  · simp at hok
  rename_i rem
  split at hok
  · split
    · exact repairConsume_nodup _ _ rem (fromListIS_nodup _) hrc
    · simp_all
  · simp at hok

theorem resetToState_chain (st0 : StackState) (s : St)
    (hnd : (st0.applied ++ st0.unapplied ++ st0.hidden).Nodup)
    (hok : (resetToState st0 s).1 = .ok ()) :
    chainNodup (resetToState st0 s).2.trans := by
  obtain ⟨h1, h2, h3⟩ := resetToState_lists st0 s hok
  unfold chainNodup StackTransaction.allPatches
  rw [h1, h2, h3]
  exact hnd

theorem renamePatch_chain (o n : PatchName) (s : St)
    (hinv : chainNodup s.trans) (hv : n = o ∨ n ∉ s.trans.allPatches)
    (hok : (renamePatch o n s).1 = .ok ()) :
    chainNodup (renamePatch o n s).2.trans := by
  unfold renamePatch at hok ⊢
  by_cases hno : n = o
  · rw [if_pos hno] at hok ⊢
    exact hinv
  · rw [if_neg hno] at hok ⊢
    have hfr : n ∉ s.trans.allPatches := hv.resolve_left hno
    cases hre : renameEarlyError s.trans o n <;> simp only [hre] at hok ⊢
    · unfold renameApply at hok ⊢
      by_cases hc1 : (s.trans.applied.contains o ||
          s.trans.unapplied.contains o || s.trans.hidden.contains o) = true
      · rw [if_pos hc1] at hok ⊢
        by_cases hoa : o ∈ s.trans.applied
        · rw [if_pos hoa] at hok ⊢
          cases hgp : s.trans.stack.getPatch o <;>
            simp only [hgp] at hok ⊢
          · simp at hok
          · exact chain_replaceFirst_a _ _ _ o n hinv hfr
        · rw [if_neg hoa] at hok ⊢
          by_cases hou : o ∈ s.trans.unapplied
          · rw [if_pos hou] at hok ⊢
            cases hgp : s.trans.stack.getPatch o <;>
              simp only [hgp] at hok ⊢
            · simp at hok
            · exact chain_replaceFirst_u _ _ _ o n hinv hfr
          · rw [if_neg hou] at hok ⊢
            cases hgp : s.trans.stack.getPatch o <;>
              simp only [hgp] at hok ⊢
            · simp at hok
            · exact chain_replaceFirst_h _ _ _ o n hinv hfr
      · rw [if_neg hc1] at hok ⊢
        simp at hok
    · simp at hok

theorem resetPartialGo_chain (env : Env) (st0 : StackState)
    (existingA matchingA toResetA toPushBase : List PatchName)
    (popPred dPred : PatchName → Bool) (s : St)
    (hinv : chainNodup s.trans)
    (hTR : toResetA.Nodup)
    (hfresh : ∀ x ∈ toResetA, existingA.contains x = false →
      x ∉ s.trans.allPatches)
    (hPB : toPushBase.Nodup)
    (hok : (resetPartialGo env st0 existingA matchingA toResetA toPushBase
      popPred dPred s).1 = .ok ()) :
    chainNodup (resetPartialGo env st0 existingA matchingA toResetA
      toPushBase popPred dPred s).2.trans := by
  unfold resetPartialGo at hok ⊢
  obtain ⟨a1, hx1, heq1⟩ := bindR_ok_elim hok
  rw [heq1] at hok ⊢
  try dsimp only at hok ⊢
  obtain ⟨a2, hx2, heq2⟩ := bindR_ok_elim hok
  rw [heq2] at hok ⊢
  try dsimp only at hok ⊢
  obtain ⟨a3, hx3, heq3⟩ := bindR_ok_elim hok
  rw [heq3] at hok ⊢
  try dsimp only at hok ⊢
  have hpop := popPatches_chain popPred s hinv
  have hdel := deletePatches_chain dPred (popPatches popPred s).2 hpop.1
  have hins := resetInstallLoop_chain st0 existingA matchingA toResetA
    (deletePatches dPred (popPatches popPred s).2).2 hdel.1 hTR
    (fun x hx hcf hmem2 =>
      hfresh x hx hcf ((hpop.2 x).mp (hdel.2 x hmem2)))
  refine (pushPatches_chain env _ false _ hins.1 (hPB.filter _)
    ?_ hok).1
  intro x hx
  have hcond := List.of_mem_filter hx
  rw [Bool.or_eq_true] at hcond
  rcases hcond with h | h
  · exact Or.inl ((contains_true_iff _ x).mp h)
  · exact Or.inr ((contains_true_iff _ x).mp h)

theorem resetToStatePartially_chain (env : Env) (st0 : StackState)
    (pns0 : List PatchName) (s : St) (hinv : chainNodup s.trans)
    (hok : (resetToStatePartially env st0 pns0 s).1 = .ok ()) :
    chainNodup (resetToStatePartially env st0 pns0 s).2.trans := by
  unfold resetToStatePartially at hok ⊢
  dsimp only at hok ⊢
  refine resetPartialGo_chain env st0 _ _ _ _ _ _ s hinv
    ((fromListIS_nodup _).filter _) ?_
    (((List.sublist_append_left s.trans.applied s.trans.unapplied).trans
      (List.sublist_append_left (s.trans.applied ++ s.trans.unapplied)
        s.trans.hidden)).nodup hinv) hok
  intro x _ hcf hmem
  exact ((contains_false_iff _ x).mp hcf) ((mem_fromListIS _ x).mpr hmem)

/-- C4 (amended): for a transaction whose three lists laid end to end are
duplicate-free, every valid mutation call that returns Ok keeps the chain
duplicate-free, hence the applied/unapplied/hidden lists pairwise disjoint.
Validity adds the callers' obligations the code itself does not check:
fresh names for new_applied/new_unapplied/uncommit/rename, pushed names
taken from unapplied or hidden, duplicate-free full list complements for
reorder and reset_to_state, and commit_patches called on a prefix of the
applied list. -/

theorem claim_C4_disjoint_amended (m : Mutation) (s : St)
    (hinv : chainNodup s.trans) (hv : validCall m s)
    (hok : (applyMutation m s).1 = .ok ()) :
    chainNodup (applyMutation m s).2.trans ∧
    listsDisjoint (applyMutation m s).2.trans := by
  suffices h : chainNodup (applyMutation m s).2.trans from
    ⟨h, chainNodup_disjoint _ h⟩
  cases m with
  | updateM pn cid => exact updatePatch_chain pn cid s hinv
  | newAppliedM pn cid => exact newApplied_chain pn cid s hinv hv
  | newUnappliedM pn cid pos =>
    exact newUnapplied_chain pn cid pos s hinv hv
  | pushTreeM pn il => exact pushTree_chain pn il s hinv
  | pushM env2 pns cm =>
    exact (pushPatches_chain env2 pns cm s hinv hv.1 hv.2 hok).1
  | popM p => exact (popPatches_chain p s hinv).1
  | deleteM p => exact (deletePatches_chain p s hinv).1
  | reorderM env2 a u h =>
    cases a with
    | none =>
      show chainNodup (reorderAssign u h s).trans
      unfold chainNodup StackTransaction.allPatches
      rw [(reorderAssign_lists u h s).1, (reorderAssign_lists u h s).2.1,
        (reorderAssign_lists u h s).2.2]
      exact hv
    | some aL =>
      obtain ⟨uL, hL, rfl, rfl, hnd3⟩ := hv
      have h3 := reorder_ok_lists env2 s aL uL hL hok
      show chainNodup
        (reorderPatches env2 (some aL) (some uL) (some hL) s).2.trans
      unfold chainNodup StackTransaction.allPatches
      rw [h3.1, h3.2.1, h3.2.2]
      exact hnd3
  | repairM a u h => exact repairAppliedness_chain a u h s hok
  | commitM env2 tc => exact commitPatches_chain env2 tc s hinv hv hok
  | uncommitM ps => exact uncommitPatches_chain ps s hinv hv.1 hv.2 hok
  | hideM env2 pns => exact hidePatches_chain env2 pns s hinv hv.1 hv.2 hok
  | unhideM env2 pns => exact unhidePatches_chain env2 pns s hinv hv.1 hv.2
  | renameM o n => exact renamePatch_chain o n s hinv hv hok
  | resetM st0 => exact resetToState_chain st0 s hv hok
  | resetPartialM env2 st0 pns =>
    exact resetToStatePartially_chain env2 st0 pns s hinv hok

/-- Witness for the amended C4: a fresh `new_applied` on the concrete
world, with a duplicate-free chain before and after. -/

theorem claim_C4_disjoint_amended_witness :
    chainNodup stC4.trans ∧
    validCall (.newAppliedM 6 16) stC4 ∧
    (applyMutation (.newAppliedM 6 16) stC4).1 = .ok () ∧
    chainNodup (applyMutation (.newAppliedM 6 16) stC4).2.trans ∧
    listsDisjoint (applyMutation (.newAppliedM 6 16) stC4).2.trans := by
  have h := claim_C4_disjoint_amended (.newAppliedM 6 16) stC4
    (show stC4.trans.allPatches.Nodup by decide)
    (show (6 : Nat) ∉ stC4.trans.allPatches by decide) (by rfl)
  exact ⟨show stC4.trans.allPatches.Nodup by decide,
    show (6 : Nat) ∉ stC4.trans.allPatches by decide,
    by rfl, h.1, h.2⟩
